import Mathlib

/-!
# Verification of the mcpdir discovery / validation core

This file is a shallow embedding, in Lean 4, of the parts of the mcpdir
code base that the specification's testable properties talk about:

* the install-command security validator and the submission-creation
  handler (`src/app/api/validate/check/route.ts`),
* the cancel handler (`src/app/api/validate/[id]/route.ts` area),
* the asynchronous validation worker (`scripts/run-validation.ts`),
* the MCP handshake state machine (`src/lib/validation/mcp-validator.ts`),
* the Docker / direct execution selection and environment construction
  (`src/lib/validation/docker-validator.ts`),
* the multi-source merge engine (`scripts/lib/deduplication.ts`),
* the GitHub URL canonicalizer (`scripts/lib/sources/base.ts`).

Strings are modelled as `List Char` (abbreviated `Str`) so that the
JavaScript string operations used by the code (`includes`, `split`,
`slice`, `toLowerCase`, regex scans) can be given direct recursive
definitions that the kernel can evaluate.  JavaScript truthiness is made
explicit wherever the code relies on it (`0`, `""`, `null`/`undefined`
are falsy; `Date` objects are truthy).  Wall-clock durations
(`Date.now()` arithmetic) are not modelled; the `durationMs` field is
kept in result records but pinned to `0`.
-/

/-- JavaScript strings, modelled as lists of characters. -/
abbrev Str := List Char

namespace JsStr

/-- `pat` is a prefix of `s` (JS `String.prototype.startsWith`). -/
def startsWithB : Str → Str → Bool
  | [], _ => true
  | _ :: _, [] => false
  | p :: ps, c :: cs => p = c && startsWithB ps cs

/-- `s.includes(pat)` — substring containment, scanning left to right. -/
def containsSub (s pat : Str) : Bool :=
  if startsWithB pat s then true
  else
    match s with
    | [] => false
    | _ :: t => containsSub t pat

/-- ASCII lower-casing of a JS string (`String.prototype.toLowerCase`;
the code only lower-cases package names, GitHub owners/repos and
commands, which are ASCII). -/
def lowerB (s : Str) : Str := s.map Char.toLower

/-- `s.split(sep)` for a one-character separator (the code only splits
on a single space). -/
def splitChar (sep : Char) : Str → List Str
  | [] => [[]]
  | c :: t =>
    let r := splitChar sep t
    if c = sep then [] :: r
    else
      match r with
      | h :: t' => (c :: h) :: t'
      | [] => [[c]]

/-- JS truthiness of an optional string (`undefined`/`null` and `""` are
falsy). -/
def strTruthy : Option Str → Bool
  | none => false
  | some s => s ≠ []

/-- JS `a || b` on optional strings. -/
def strOr (a b : Option Str) : Option Str :=
  if strTruthy a then a else b

end JsStr

open JsStr

/-! ## Install-command security validation
(`validateInstallCommand`, `src/app/api/validate/check/route.ts`). -/

/-- Result shape of `validateInstallCommand`. -/
structure CmdValidation where
  valid : Bool
  error : Option Str := none
  deriving DecidableEq, Repr

/-- The shell operators the route refuses
(`["|", "&&", "||", ";", "`", "$(", "${", ">", "<", "\\n"]`; in the
TypeScript source `"\\n"` is the two-character string backslash-n). -/
def dangerousPatterns : List Str :=
  ["|".toList, "&&".toList, "||".toList, ";".toList, "`".toList,
   "$(".toList, "$\x7b".toList, ">".toList, "<".toList, "\\n".toList]

/-- The package-match half of `validateInstallCommand`: for a command
with the given launcher prefix stripped, the first word must be the
registered package, or the whole lower-cased command must contain it. -/
def packageMismatch (command : Str) (dropLen : Nat) (normalizedPackage : Str) : Bool :=
  let parts := splitChar ' ' (command.drop dropLen)
  let cmdPackage := lowerB (parts.headD [])
  cmdPackage ≠ normalizedPackage && !containsSub (lowerB command) normalizedPackage

/-- `validateInstallCommand(command, packageName)` from
`src/app/api/validate/check/route.ts`: requires an `npx -y `/`uvx `
launcher, refuses shell metacharacters, and (when the server has a
registered package name) requires the command to reference it. -/
def validateInstallCommand (command : Str) (packageName : Option Str) : CmdValidation :=
  if !startsWithB "npx -y ".toList command && !startsWithB "uvx ".toList command then
    { valid := false, error := some "Command must start with npx -y or uvx".toList }
  else
    match dangerousPatterns.find? (fun p => containsSub command p) with
    | some p =>
      { valid := false, error := some ("Command contains forbidden pattern: ".toList ++ p) }
    | none =>
      if strTruthy packageName then
        let normalizedPackage := lowerB (packageName.getD [])
        if startsWithB "npx -y ".toList command && packageMismatch command 7 normalizedPackage then
          { valid := false,
            error := some ("Install command must use the servers package: ".toList
              ++ packageName.getD []) }
        else if startsWithB "uvx ".toList command && packageMismatch command 4 normalizedPackage then
          { valid := false,
            error := some ("Install command must use the servers package: ".toList
              ++ packageName.getD []) }
        else
          { valid := true }
      else
        { valid := true }

/-! ## Validation request data model
(`manualValidations` rows and the `servers` rows, as used by the
validation routes and the worker). -/

/-- The statuses a manual validation can carry
(`pending`, `validating`, `completed`, `failed`, `cancelled`, plus the
admin review statuses `approved`/`rejected`). -/
inductive VStatus where
  | pending
  | validating
  | completed
  | failed
  | cancelled
  | approved
  | rejected
  deriving DecidableEq, Repr

/-- One `manualValidations` row, restricted to the columns the handlers
and the worker read or write.  `encryptedCredentials` holds the
ciphertext blob (or `NULL`). -/
structure Submission where
  id : Nat
  serverId : Str
  userId : Str
  status : VStatus
  installCommand : Option Str := none
  encryptedCredentials : Option Str := none
  validationError : Option Str := none
  isOwnerSubmission : Nat := 0
  deriving DecidableEq, Repr

/-- One `servers` row, restricted to the columns these code paths use. -/
structure ServerRow where
  id : Str
  packageName : Option Str := none
  installCommand : Option Str := none
  sourceUrl : Option Str := none
  deriving DecidableEq, Repr

/-- `db.update(manualValidations).set(f).where(eq(id, vid))`: apply `f`
to every row whose id matches. -/
def updateSubmission (subs : List Submission) (vid : Nat) (f : Submission → Submission) :
    List Submission :=
  subs.map (fun s => if s.id = vid then f s else s)

/-- Case-insensitive scan for the first `github.com/<owner>` occurrence
(the create handler's `/github\.com\/([^/]+)/i`): at each position try a
case-insensitive `github.com/` prefix, then capture a nonempty run of
non-`/` characters. -/
def extractRepoOwnerCI : Str → Option Str
  | [] => none
  | s@(_ :: t) =>
    if startsWithB "github.com/".toList (lowerB s) then
      match (s.drop 11).takeWhile (fun c => c ≠ '/') with
      | [] => extractRepoOwnerCI t
      | owner => some owner
    else extractRepoOwnerCI t

/-- The authenticated session the routes read
(`session.user.id`, `session.user.githubUsername`). -/
structure SessionUser where
  userId : Str
  githubUsername : Str
  deriving DecidableEq, Repr

/-- Responses of the submission-creation handler, abstracted to the
cases the code returns. -/
inductive CreateResp where
  | authRequired
  | errServerIdRequired
  | errServerNotFound
  | errCommandRequired
  | errInvalidCommand (msg : Str)
  | existingSub (validationId : Nat)
  | created (validationId : Nat)
  deriving DecidableEq, Repr

/-- The `POST /api/validate/check` handler
(`src/app/api/validate/check/route.ts`): authenticate, fetch the
server, resolve the run command, validate a custom command, return an
existing `pending` submission by the same user for the same server, or
insert a fresh `pending` one (with `isOwnerSubmission` computed from
the GitHub owner).  `freshId` stands for the id the insert returns. -/
def createValidation (servers : List ServerRow) (subs : List Submission) (freshId : Nat)
    (session : Option SessionUser) (serverId : Str) (installCommand : Option Str) :
    CreateResp × List Submission :=
  match session with
  | none => (CreateResp.authRequired, subs)
  | some user =>
    if serverId = [] then (CreateResp.errServerIdRequired, subs)
    else
      match servers.find? (fun s => s.id = serverId) with
      | none => (CreateResp.errServerNotFound, subs)
      | some server =>
        let finalCommand := strOr installCommand server.installCommand
        if !strTruthy finalCommand then (CreateResp.errCommandRequired, subs)
        else
          let customCheck :=
            if strTruthy installCommand then
              validateInstallCommand (installCommand.getD []) server.packageName
            else { valid := true }
          if !customCheck.valid then
            (CreateResp.errInvalidCommand (customCheck.error.getD []), subs)
          else
            match subs.find? (fun s =>
                s.serverId = serverId && s.userId = user.userId
                  && s.status = VStatus.pending) with
            | some existing => (CreateResp.existingSub existing.id, subs)
            | none =>
              let isOwner :=
                match server.sourceUrl with
                | none => false
                | some url =>
                  match extractRepoOwnerCI url with
                  | none => false
                  | some owner => lowerB owner = lowerB user.githubUsername
              let newSub : Submission :=
                { id := freshId, serverId := serverId, userId := user.userId,
                  status := VStatus.pending,
                  installCommand := if strTruthy installCommand then installCommand else none,
                  isOwnerSubmission := if isOwner then 1 else 0 }
              (CreateResp.created freshId, subs ++ [newSub])

/-- Responses of the cancel handler. -/
inductive CancelResp where
  | authRequired
  | notFound
  | forbidden
  | badStatus (st : VStatus)
  | cancelled
  deriving DecidableEq, Repr

/-- The cancel handler (`POST /api/validate/[id]/cancel`): only the
original submitter, only from `pending`/`validating`; on success the
row update sets **only** the status column to `cancelled`. -/
def cancelValidation (subs : List Submission) (session : Option SessionUser) (vid : Nat) :
    CancelResp × List Submission :=
  match session with
  | none => (CancelResp.authRequired, subs)
  | some user =>
    match subs.find? (fun s => s.id = vid) with
    | none => (CancelResp.notFound, subs)
    | some submission =>
      if submission.userId ≠ user.userId then (CancelResp.forbidden, subs)
      else if submission.status ≠ VStatus.pending ∧ submission.status ≠ VStatus.validating then
        (CancelResp.badStatus submission.status, subs)
      else
        (CancelResp.cancelled,
          updateSubmission subs vid (fun s => { s with status := VStatus.cancelled }))

/-! ## The asynchronous validation worker
(`scripts/run-validation.ts`, `main`). -/

/-- The kinds of tool/resource/prompt entries a validation result
reports. -/
structure ToolInfo where
  name : Str
  description : Option Str := none
  deriving DecidableEq, Repr

structure ResourceInfo where
  uri : Str
  name : Option Str := none
  description : Option Str := none
  deriving DecidableEq, Repr

structure PromptInfo where
  name : Str
  description : Option Str := none
  deriving DecidableEq, Repr

structure ServerIdent where
  name : Str
  version : Option Str := none
  deriving DecidableEq, Repr

structure CapFlags where
  tools : Bool := false
  resources : Bool := false
  prompts : Bool := false
  deriving DecidableEq, Repr

/-- `ValidationResult` (`src/lib/validation/mcp-validator.ts`).
`durationMs` is pinned to `0` (wall-clock time is not modelled). -/
structure ValidationResult where
  success : Bool
  serverInfo : Option ServerIdent := none
  capabilities : Option CapFlags := none
  tools : Option (List ToolInfo) := none
  resources : Option (List ResourceInfo) := none
  prompts : Option (List PromptInfo) := none
  error : Option Str := none
  durationMs : Nat := 0
  deriving DecidableEq, Repr

/-- The persisted-state actions the worker performs, in program order.
`execValidation` marks the `validateInDocker` call; the `updFailedClear`
early exits set `status = failed` **and** null out the ciphertext in one
update, while `clearCreds` is the standalone
`set({ encryptedCredentials: null })` update. -/
inductive WAction where
  | readAndDecrypt
  | updFailedClear (err : Str)
  | execValidation
  | clearCreds
  | setCompleted
  | setFailed (err : Str)
  | updServer
  deriving DecidableEq, Repr

/-- Apply one worker action to the submission row it targets. -/
def applyWAction (s : Submission) : WAction → Submission
  | WAction.readAndDecrypt => s
  | WAction.updFailedClear err =>
    { s with status := VStatus.failed, validationError := some err,
             encryptedCredentials := none }
  | WAction.execValidation => s
  | WAction.clearCreds => { s with encryptedCredentials := none }
  | WAction.setCompleted => { s with status := VStatus.completed }
  | WAction.setFailed err => { s with status := VStatus.failed, validationError := some err }
  | WAction.updServer => s

/-- The worker `main` of `scripts/run-validation.ts`, as the ordered list
of persisted-state actions it performs.  `decrypt` stands for
`decryptCredentials` (`none` = the call throws); `dockerResult` stands
for the value `validateInDocker` returns.  An empty trace means the
worker exited before touching the row (record missing or not in
`validating`). -/
def workerTrace (validationId : Nat) (subs : List Submission) (servers : List ServerRow)
    (decrypt : Str → Option (List (Str × Str))) (dockerResult : ValidationResult) :
    List WAction :=
  match subs.find? (fun s => s.id = validationId) with
  | none => []
  | some validation =>
    if validation.status ≠ VStatus.validating then []
    else
      match servers.find? (fun s => s.id = validation.serverId) with
      | none => [WAction.updFailedClear "Server not found".toList]
      | some server =>
        if !strTruthy (strOr validation.installCommand server.installCommand) then
          [WAction.updFailedClear "No install command available".toList]
        else
          let decryptSteps :=
            match validation.encryptedCredentials with
            | none => some []
            | some blob =>
              match decrypt blob with
              | none => none
              | some _ => some [WAction.readAndDecrypt]
          match decryptSteps with
          | none =>
            [WAction.updFailedClear "Failed to decrypt credentials".toList]
          | some pre =>
            pre ++ [WAction.execValidation, WAction.clearCreds]
              ++ (if dockerResult.success then [WAction.setCompleted, WAction.updServer]
                  else [WAction.setFailed (dockerResult.error.getD [])])

/-- Fold a worker trace over the submission row. -/
def runWActions (s : Submission) (tr : List WAction) : Submission :=
  tr.foldl applyWAction s

/-- The submission row as it stands when `validateInDocker` starts: the
actions strictly before the first `execValidation` have been applied. -/
def rowAtExec (s : Submission) (tr : List WAction) : Submission :=
  runWActions s (tr.takeWhile (fun a => a ≠ WAction.execValidation))

/-! ## The MCP handshake state machine
(`validateMcpServer`, `src/lib/validation/mcp-validator.ts`).

The validator is event-driven: stdout `data` events append to a buffer
that is re-parsed in full each time, `exit`/`error` events and the
45-second timer race to `finish`, and `finish` resolves at most once.
We model one run as a fold of those events over the handler state.
Writes to the child stdin (the `initialize` request, the `initialized`
notification and the three pipelined list requests with ids 2, 3, 4)
carry no state the claims mention and are not tracked. -/

/-- `TIMEOUT_MS = 45000` — the fixed 45 second timeout. -/
def TIMEOUT_MS : Nat := 45000

/-- A parsed JSON-RPC error object. -/
structure RpcError where
  code : Int := 0
  message : Str
  deriving DecidableEq, Repr

/-- The shape the code reads out of a JSON-RPC `result`, per id:
`serverInfo`/`capabilities` for id 1, the three capability lists for
ids 2–4.  `capTools` etc. are the truthiness of `capabilities.tools`
(the code stores `!!res.capabilities?.tools`). -/
structure RpcResult where
  serverInfoName : Option Str := none
  serverInfoVersion : Option Str := none
  capTools : Bool := false
  capResources : Bool := false
  capPrompts : Bool := false
  tools : Option (List ToolInfo) := none
  resources : Option (List ResourceInfo) := none
  prompts : Option (List PromptInfo) := none
  deriving DecidableEq, Repr

/-- A message `parseJsonRpcMessages` keeps: `jsonrpc == "2.0"` and an
`id` field; `result`/`error` optional (`none` also covers the falsy
`null`). -/
structure RpcMsg where
  id : Int
  result : Option RpcResult := none
  error : Option RpcError := none
  deriving DecidableEq, Repr

/-- The closure state of one `validateMcpServer` run. -/
structure VState where
  resolved : Bool := false
  finish : Option ValidationResult := none
  buffer : List RpcMsg := []
  initDone : Bool := false
  toolsDone : Bool := false
  resourcesDone : Bool := false
  promptsDone : Bool := false
  res : ValidationResult := { success := false }
  stderr : Str := []
  deriving DecidableEq, Repr

/-- `finish(result)`: resolve once; later calls are ignored. -/
def finishWith (s : VState) (r : ValidationResult) : VState :=
  if s.resolved then s else { s with resolved := true, finish := some r }

/-- The fatal result for a JSON-RPC error on the `initialize` id. -/
def initErrorResult (e : RpcError) : ValidationResult :=
  { success := false, error := some ("MCP initialize error: ".toList ++ e.message) }

/-- The body of the stdout handler's `for (const msg of messages)` loop
for one message.  Returns the new state and whether the loop `return`ed
(it does so only after a fatal id-1 error). -/
def stepMsg (s : VState) (m : RpcMsg) : VState × Bool :=
  -- `if (msg.error) { ... }`
  let errRes :=
    match m.error with
    | some e =>
      if m.id = 1 then (finishWith s (initErrorResult e), true)
      else if m.id = 2 then
        ({ s with toolsDone := true, res := { s.res with tools := some [] } }, false)
      else if m.id = 3 then
        ({ s with resourcesDone := true, res := { s.res with resources := some [] } }, false)
      else if m.id = 4 then
        ({ s with promptsDone := true, res := { s.res with prompts := some [] } }, false)
      else (s, false)
    | none => (s, false)
  if errRes.2 then errRes
  else
    let s1 := errRes.1
    -- `if (!initDone && msg.id === 1 && msg.result)`
    let s2 :=
      match m.result with
      | some r =>
        if !s1.initDone && m.id = 1 then
          { s1 with
            initDone := true
            res := { s1.res with
              serverInfo := some
                { name := r.serverInfoName.getD "unknown".toList
                  version := r.serverInfoVersion }
              capabilities := some
                { tools := r.capTools
                  resources := r.capResources
                  prompts := r.capPrompts } } }
        else s1
      | none => s1
    -- `if (!toolsDone && msg.id === 2 && msg.result)`
    let s3 :=
      match m.result with
      | some r =>
        if !s2.toolsDone && m.id = 2 then
          { s2 with toolsDone := true, res := { s2.res with tools := some (r.tools.getD []) } }
        else s2
      | none => s2
    -- `if (!resourcesDone && msg.id === 3 && msg.result)`
    let s4 :=
      match m.result with
      | some r =>
        if !s3.resourcesDone && m.id = 3 then
          { s3 with
            resourcesDone := true
            res := { s3.res with resources := some (r.resources.getD []) } }
        else s3
      | none => s3
    -- `if (!promptsDone && msg.id === 4 && msg.result)`
    let s5 :=
      match m.result with
      | some r =>
        if !s4.promptsDone && m.id = 4 then
          { s4 with
            promptsDone := true
            res := { s4.res with prompts := some (r.prompts.getD []) } }
        else s4
      | none => s4
    -- `if (initDone && toolsDone && resourcesDone && promptsDone)`
    if s5.initDone && s5.toolsDone && s5.resourcesDone && s5.promptsDone then
      let res' := { s5.res with success := true }
      (finishWith { s5 with res := res' } res', false)
    else (s5, false)

/-- Run the message loop over a parsed buffer, honouring the early
`return`. -/
def processMsgs (s : VState) : List RpcMsg → VState
  | [] => s
  | m :: rest =>
    match stepMsg s m with
    | (s', true) => s'
    | (s', false) => processMsgs s' rest

/-- The external events one run can see. -/
inductive VEvent where
  /-- a stdout `data` chunk whose newly completed lines parse to `msgs` -/
  | dataEv (msgs : List RpcMsg)
  /-- a stderr `data` chunk -/
  | stderrEv (txt : Str)
  /-- the child's `exit` event (`none` = signal exit, code `null`) -/
  | exitEv (code : Option Int)
  /-- the child's `error` (spawn failure) event -/
  | errorEv (message : Str)
  /-- the 45-second timer fires -/
  | timeoutEv
  deriving DecidableEq, Repr

/-- The timeout failure text, `Timeout after ${TIMEOUT_MS / 1000}s`. -/
def timeoutErrorText : Str :=
  "Timeout after ".toList ++ (toString (TIMEOUT_MS / 1000)).toList ++ "s".toList

/-- The unexpected-exit failure text, with the 500-character stderr
excerpt. -/
def exitErrorText (code : Int) (stderr : Str) : Str :=
  "Process exited with code ".toList ++ (toString code).toList
    ++ ". stderr: ".toList ++ stderr.take 500

/-- One event-handler invocation of the validator. -/
def stepEvent (s : VState) : VEvent → VState
  | VEvent.dataEv msgs =>
    let s' := { s with buffer := s.buffer ++ msgs }
    processMsgs s' s'.buffer
  | VEvent.stderrEv t => { s with stderr := s.stderr ++ t }
  | VEvent.exitEv code =>
    if !s.resolved then
      match code with
      | some c =>
        if c ≠ 0 then
          finishWith s { success := false, error := some (exitErrorText c s.stderr) }
        else s
      | none => s
    else s
  | VEvent.errorEv msg =>
    finishWith s { success := false, error := some ("Spawn error: ".toList ++ msg) }
  | VEvent.timeoutEv =>
    finishWith s { success := false, error := some timeoutErrorText }

/-- One full run of `validateMcpServer`, as a fold of its events. -/
def runValidator (events : List VEvent) : VState :=
  events.foldl stepEvent {}

/-! ## Execution backends and environment construction
(`src/lib/validation/mcp-validator.ts` spawn options,
`src/lib/validation/docker-validator.ts`). -/

/-- The environment of the directly spawned child in fallback mode:
`env: { ...process.env, NODE_ENV: "production" }`.  A JS object spread
keeps every host entry (overriding `NODE_ENV` in place when present,
appending it otherwise). -/
def mcpSpawnEnv (hostEnv : List (Str × Str)) : List (Str × Str) :=
  if hostEnv.any (fun p => p.1 = "NODE_ENV".toList) then
    hostEnv.map (fun p =>
      if p.1 = "NODE_ENV".toList then (p.1, "production".toList) else p)
  else hostEnv ++ [("NODE_ENV".toList, "production".toList)]

/-- The `-e KEY=value` flags `validateInDocker` passes to `docker run`:
one per explicitly supplied variable, plus `MCP_INSTALL_CMD`.  The host
environment never appears here. -/
def dockerEnvFlags (envVars : List (Str × Str)) (installCommand : Str) : List Str :=
  envVars.flatMap (fun kv => ["-e".toList, kv.1 ++ "=".toList ++ kv.2])
    ++ ["-e".toList, "MCP_INSTALL_CMD=".toList ++ installCommand]

/-- `isPythonCommand` (`docker-validator.ts`). -/
def isPythonCommand (command : Str) : Bool :=
  startsWithB "uvx ".toList command || startsWithB "python ".toList command

/-- The strategy `validateMcpServerSafe` selects. -/
inductive ExecMode where
  /-- Docker available: isolated container -/
  | docker
  /-- no Docker, Python ecosystem: refuse -/
  | refusePython
  /-- no Docker, Node ecosystem: direct in-process spawn -/
  | direct
  deriving DecidableEq, Repr

/-- The mode-selection logic of `validateMcpServerSafe`. -/
def selectExecMode (dockerAvailable : Bool) (installCommand : Str) : ExecMode :=
  if dockerAvailable then ExecMode.docker
  else if isPythonCommand installCommand then ExecMode.refusePython
  else ExecMode.direct

/-! ## The merge engine (`scripts/lib/deduplication.ts`). -/

/-- The four discovery sources. -/
inductive Source where
  | mcpRegistry
  | npm
  | github
  | pypi
  deriving DecidableEq, Repr

/-- `SOURCE_PRIORITY` (lower = higher priority). -/
def sourcePriority : Source → Nat
  | Source.mcpRegistry => 1
  | Source.npm => 2
  | Source.github => 3
  | Source.pypi => 4

/-- One source's view of a project (`DiscoveredServer`,
`scripts/lib/sources/base.ts`).  `lastUpdatedAt` is a `Date` (epoch
milliseconds; as an object it is always truthy when present);
`sourceData` is the opaque raw payload, abstracted to a token. -/
structure DiscoveredServer where
  canonicalUrl : Str
  githubOwner : Option Str := none
  githubRepo : Option Str := none
  githubRepoId : Option Nat := none
  name : Str
  description : Option Str := none
  version : Option Str := none
  npmPackage : Option Str := none
  pypiPackage : Option Str := none
  installCommand : Option Str := none
  stars : Option Nat := none
  forks : Option Nat := none
  npmDownloads : Option Nat := none
  npmQualityScore : Option Nat := none
  lastUpdatedAt : Option Nat := none
  source : Source
  sourceIdentifier : Str := []
  sourceUrl : Str := []
  sourceData : Nat := 0
  deriving DecidableEq, Repr

/-- The merged record (`MergedServer`).  `sourceData` is the
source-keyed raw-payload map the loop builds. -/
structure MergedServer where
  canonicalUrl : Str
  githubOwner : Option Str := none
  githubRepo : Option Str := none
  githubRepoId : Option Nat := none
  name : Str
  description : Option Str := none
  version : Option Str := none
  npmPackage : Option Str := none
  pypiPackage : Option Str := none
  installCommand : Option Str := none
  stars : Option Nat := none
  forks : Option Nat := none
  npmDownloads : Option Nat := none
  npmQualityScore : Option Nat := none
  lastUpdatedAt : Option Nat := none
  sources : List Source := []
  sourceData : Source → Option Nat := fun _ => none

/-- JS truthiness of an optional number (`0` is falsy). -/
def numTruthy : Option Nat → Bool
  | none => false
  | some n => n ≠ 0

/-- JS truthiness of an optional `Date` (objects are truthy). -/
def dateTruthy : Option Nat → Bool
  | none => false
  | some _ => true

/-- The record-priority comparison the sort uses
(`SOURCE_PRIORITY[a.source] - SOURCE_PRIORITY[b.source]`). -/
def priorityLE (a b : DiscoveredServer) : Prop :=
  sourcePriority a.source ≤ sourcePriority b.source

instance : DecidableRel priorityLE := fun a b =>
  inferInstanceAs (Decidable (sourcePriority a.source ≤ sourcePriority b.source))

instance : IsTotal DiscoveredServer priorityLE :=
  ⟨fun a b => Nat.le_total (sourcePriority a.source) (sourcePriority b.source)⟩

instance : IsTrans DiscoveredServer priorityLE :=
  ⟨fun _ _ _ h h' => Nat.le_trans h h'⟩

/-- The stable priority sort (`[...servers].sort((a, b) => ...)`;
insertion sort is stable, like the ECMAScript sort). -/
def sortByPriority (servers : List DiscoveredServer) : List DiscoveredServer :=
  servers.insertionSort priorityLE

/-- Seed the merged record from the highest-priority record; `sources`
is `servers.map(s => s.source)` over the **input-order** list. -/
def seedMerged (canonicalUrl : Str) (primary : DiscoveredServer)
    (servers : List DiscoveredServer) : MergedServer :=
  { canonicalUrl := canonicalUrl
    githubOwner := primary.githubOwner
    githubRepo := primary.githubRepo
    githubRepoId := primary.githubRepoId
    name := primary.name
    description := primary.description
    version := primary.version
    npmPackage := primary.npmPackage
    pypiPackage := primary.pypiPackage
    installCommand := primary.installCommand
    stars := primary.stars
    forks := primary.forks
    npmDownloads := primary.npmDownloads
    npmQualityScore := primary.npmQualityScore
    lastUpdatedAt := primary.lastUpdatedAt
    sources := servers.map (fun s => s.source)
    sourceData := fun _ => none }

/-- `for (const server of servers) result.sourceData[server.source] = server.sourceData`
— later records overwrite earlier ones with the same source key. -/
def collectSourceData (servers : List DiscoveredServer) : Source → Option Nat :=
  servers.foldl
    (fun acc s => fun k => if k = s.source then some s.sourceData else acc k)
    (fun _ => none)

/-- One `FIELD_PRIORITY` override: walk the priority sources, take the
field from the first listed source whose record (first match in input
order) defines it (`!== undefined`). -/
def fieldOverride {α : Type} (servers : List DiscoveredServer)
    (get : DiscoveredServer → Option α) : List Source → Option α → Option α
  | [], cur => cur
  | src :: rest, cur =>
    match servers.find? (fun s => s.source = src) with
    | some sv =>
      match get sv with
      | some v => some v
      | none => fieldOverride servers get rest cur
    | none => fieldOverride servers get rest cur

/-- Apply the `FIELD_PRIORITY` table (stars/forks/githubRepoId from
github, npmDownloads/npmQualityScore from npm, version from
npm→registry→pypi, installCommand from registry→npm→pypi). -/
def applyFieldPriority (servers : List DiscoveredServer) (m : MergedServer) : MergedServer :=
  { m with
    stars := fieldOverride servers (fun s => s.stars) [Source.github] m.stars
    forks := fieldOverride servers (fun s => s.forks) [Source.github] m.forks
    githubRepoId := fieldOverride servers (fun s => s.githubRepoId) [Source.github] m.githubRepoId
    npmDownloads := fieldOverride servers (fun s => s.npmDownloads) [Source.npm] m.npmDownloads
    npmQualityScore :=
      fieldOverride servers (fun s => s.npmQualityScore) [Source.npm] m.npmQualityScore
    version := fieldOverride servers (fun s => s.version)
      [Source.npm, Source.mcpRegistry, Source.pypi] m.version
    installCommand := fieldOverride servers (fun s => s.installCommand)
      [Source.mcpRegistry, Source.npm, Source.pypi] m.installCommand }

/-- One step of the `// Merge missing fields from other sources` loop:
each `if (!result.f && server.f) result.f = server.f` with JS
truthiness per field type. -/
def mergeMissingStep (m : MergedServer) (server : DiscoveredServer) : MergedServer :=
  let m := if !numTruthy m.githubRepoId && numTruthy server.githubRepoId then
    { m with githubRepoId := server.githubRepoId } else m
  let m := if !strTruthy m.description && strTruthy server.description then
    { m with description := server.description } else m
  let m := if !strTruthy m.version && strTruthy server.version then
    { m with version := server.version } else m
  let m := if !strTruthy m.npmPackage && strTruthy server.npmPackage then
    { m with npmPackage := server.npmPackage } else m
  let m := if !strTruthy m.pypiPackage && strTruthy server.pypiPackage then
    { m with pypiPackage := server.pypiPackage } else m
  let m := if !strTruthy m.installCommand && strTruthy server.installCommand then
    { m with installCommand := server.installCommand } else m
  let m := if !numTruthy m.stars && numTruthy server.stars then
    { m with stars := server.stars } else m
  let m := if !numTruthy m.forks && numTruthy server.forks then
    { m with forks := server.forks } else m
  let m := if !numTruthy m.npmDownloads && numTruthy server.npmDownloads then
    { m with npmDownloads := server.npmDownloads } else m
  let m := if !numTruthy m.npmQualityScore && numTruthy server.npmQualityScore then
    { m with npmQualityScore := server.npmQualityScore } else m
  let m := if !dateTruthy m.lastUpdatedAt && dateTruthy server.lastUpdatedAt then
    { m with lastUpdatedAt := server.lastUpdatedAt } else m
  m

/-- The per-group body of `deduplicateServers`: sort by source priority,
seed from the highest-priority record, collect raw payloads, apply the
field-priority overrides, then fill still-falsy fields from the
remaining records in priority order.  `none` for an empty group
(`continue` in the source). -/
def mergeGroup (canonicalUrl : Str) (servers : List DiscoveredServer) : Option MergedServer :=
  if servers.isEmpty then none
  else
    match sortByPriority servers with
    | [] => none
    | primary :: rest =>
      let m0 := seedMerged canonicalUrl primary servers
      let m1 := { m0 with sourceData := collectSourceData servers }
      let m2 := applyFieldPriority servers m1
      some (rest.foldl mergeMissingStep m2)

/-- `deduplicateServers`: merge every canonical-identity group. -/
def deduplicateServers (discovered : List (Str × List DiscoveredServer)) : List MergedServer :=
  discovered.filterMap (fun g => mergeGroup g.1 g.2)

/-! ## The canonicalizer (`normalizeGitHubUrl`,
`scripts/lib/sources/base.ts`). -/

namespace JsStr

/-- Strip `pat` when it is a prefix (`url.replace(/^pat/, "")`). -/
def dropPrefixIfB (pat s : Str) : Str :=
  if startsWithB pat s then s.drop pat.length else s

/-- `suffix` check (`/\.git$/`). -/
def endsWithB (suffix s : Str) : Bool :=
  startsWithB suffix.reverse s.reverse

/-- Strip `suffix` when present (`s.replace(/suffix$/, "")`). -/
def dropSuffixIfB (suffix s : Str) : Str :=
  if endsWithB suffix s then s.take (s.length - suffix.length) else s

end JsStr

/-- Consume `pat` at the head of `s`, returning the remainder. -/
def dropPrefixCh : Str → Str → Option Str
  | [], s => some s
  | _ :: _, [] => none
  | p :: ps, c :: cs => if c = p then dropPrefixCh ps cs else none

/-- Try the regex `/github\.com[\/:]([^\/]+)\/([^\/\.\#]+)/` at the head
of `s`: the literal `github.com`, one `/` or `:`, a nonempty run of
non-`/` characters (owner), a `/`, then a nonempty run of characters
other than `/`, `.`, `#` (repo).  Greediness is forced: the owner run
necessarily ends at the first `/`, so no backtracking alternatives
exist. -/
def ghTryAt (s : Str) : Option (Str × Str) :=
  match dropPrefixCh "github.com".toList s with
  | none => none
  | some [] => none
  | some (sep :: rest) =>
    if sep = '/' || sep = ':' then
      let owner := rest.takeWhile (fun c => c ≠ '/')
      if owner = [] then none
      else
        match rest.dropWhile (fun c => c ≠ '/') with
        | [] => none
        | _ :: afterSlash =>
          let repo := afterSlash.takeWhile (fun c => c ≠ '/' && c ≠ '.' && c ≠ '#')
          if repo = [] then none else some (owner, repo)
    else none

/-- `String.prototype.match`: scan left to right for the first position
where the pattern matches. -/
def ghFind : Str → Option (Str × Str)
  | [] => none
  | s@(_ :: t) =>
    match ghTryAt s with
    | some r => some r
    | none => ghFind t

/-- `normalizeGitHubUrl` (`scripts/lib/sources/base.ts`): strip a
leading `git+`, rewrite the SSH form to HTTPS, find the
`github.com` owner/repo pair, lower-case both, strip a `.git` repo
suffix, and rebuild the canonical HTTPS URL. -/
def normalizeGitHubUrl (url : Str) : Option Str :=
  if url = [] then none
  else
    let u1 := dropPrefixIfB "git+".toList url
    let u2 :=
      if startsWithB "git@github.com:".toList u1 then
        "https://github.com/".toList ++ u1.drop 15
      else u1
    match ghFind u2 with
    | none => none
    | some (owner, repo) =>
      some ("https://github.com/".toList ++ lowerB owner ++ "/".toList
        ++ dropSuffixIfB ".git".toList (lowerB repo))

/-! ## Helper lemmas -/

/-- If some dangerous pattern occurs in the command, the
`dangerousPatterns` loop finds one. -/
theorem dangerous_find_isSome {command : Str}
    (h : containsSub command ";".toList = true ∨ containsSub command "`".toList = true
      ∨ containsSub command "$(".toList = true) :
    (dangerousPatterns.find? (fun p => containsSub command p)).isSome := by
  rw [List.find?_isSome]
  rcases h with h | h | h
  · exact ⟨";".toList, by simp [dangerousPatterns], h⟩
  · exact ⟨"`".toList, by simp [dangerousPatterns], h⟩
  · exact ⟨"$(".toList, by simp [dangerousPatterns], h⟩

/-- Shared core of the command-safety claim: a command containing `;`,
a backtick, or `$(` never validates, whatever the package name. -/
theorem metachar_invalid (command : Str) (packageName : Option Str)
    (h : containsSub command ";".toList = true ∨ containsSub command "`".toList = true
      ∨ containsSub command "$(".toList = true) :
    (validateInstallCommand command packageName).valid = false := by
  obtain ⟨p, hp⟩ := Option.isSome_iff_exists.mp (dangerous_find_isSome h)
  unfold validateInstallCommand
  rw [hp]
  split <;> rfl

/-! ## C5 — command safety -/

/-- C5: a run command containing `;`, a backtick, or `$(` is rejected by
the security validator whatever the declared package name is (so also
when the command does not reference the declared package), and a create
call carrying such a custom command returns a validation error without
persisting any submission — hence before any process can be spawned for
it. -/
theorem command_metachar_rejection :
    (∀ (command : Str) (packageName : Option Str),
        containsSub command ";".toList = true ∨ containsSub command "`".toList = true
          ∨ containsSub command "$(".toList = true →
        (validateInstallCommand command packageName).valid = false)
    ∧ (∀ (servers : List ServerRow) (subs : List Submission) (freshId : Nat)
        (user : SessionUser) (serverId command : Str),
        containsSub command ";".toList = true ∨ containsSub command "`".toList = true
          ∨ containsSub command "$(".toList = true →
        (createValidation servers subs freshId (some user) serverId (some command)).2 = subs
          ∧ ∀ vid, (createValidation servers subs freshId (some user) serverId
              (some command)).1 ≠ CreateResp.created vid) := by
  constructor
  · exact fun command packageName h => metachar_invalid command packageName h
  · intro servers subs freshId user serverId command h
    have hcne : command ≠ [] := by
      rintro rfl
      rcases h with h | h | h <;> exact absurd h (by decide)
    have htr : strTruthy (some command) = true := by
      simp [strTruthy, hcne]
    simp only [createValidation]
    split
    · exact ⟨rfl, fun vid => by simp⟩
    · split
      · exact ⟨rfl, fun vid => by simp⟩
      · next server hfind =>
        have hor : strOr (some command) server.installCommand = some command := by
          simp [strOr, htr]
        rw [hor]
        simp only [htr, if_true, Bool.not_true, Bool.false_eq_true, if_false]
        have hval : (validateInstallCommand command server.packageName).valid = false :=
          metachar_invalid command server.packageName h
        simp [hval, Option.getD]

/-- Witness for C5 at a concrete command and package. -/
theorem command_metachar_rejection_witness :
    (validateInstallCommand "npx -y evil; rm".toList (some "other".toList)).valid = false
    ∧ ((createValidation [] [] 7 (some ⟨"u".toList, "u".toList⟩) "srv".toList
          (some "npx -y evil; rm".toList)).2 = []
        ∧ ∀ vid, (createValidation [] [] 7 (some ⟨"u".toList, "u".toList⟩) "srv".toList
            (some "npx -y evil; rm".toList)).1 ≠ CreateResp.created vid) :=
  ⟨command_metachar_rejection.1 _ _ (Or.inl (by decide)),
   command_metachar_rejection.2 [] [] 7 ⟨"u".toList, "u".toList⟩ "srv".toList
     "npx -y evil; rm".toList (Or.inl (by decide))⟩

/-! ## C10 — clean early exit does not resolve; only the timeout does -/

/-- C10: while the run is unresolved, the exit handler ignores a clean
exit (`code === 0`) and a signal exit (`code === null`) entirely, fails
the run only for a nonzero exit code, and the 45-second timer
(`TIMEOUT_MS = 45000`) is what resolves a clean-exit run, with a
timeout failure text.  The closed conjunct runs the whole machine on
the clean-exit-then-timeout event sequence. -/
theorem clean_exit_resolves_only_by_timeout :
    (∀ s : VState, s.resolved = false → stepEvent s (VEvent.exitEv (some 0)) = s)
    ∧ (∀ s : VState, s.resolved = false → stepEvent s (VEvent.exitEv none) = s)
    ∧ (∀ (s : VState) (c : Int), s.resolved = false → c ≠ 0 →
        (stepEvent s (VEvent.exitEv (some c))).resolved = true
          ∧ (stepEvent s (VEvent.exitEv (some c))).finish =
            some { success := false, error := some (exitErrorText c s.stderr) })
    ∧ (∀ s : VState, s.resolved = false →
        (stepEvent s VEvent.timeoutEv).resolved = true
          ∧ (stepEvent s VEvent.timeoutEv).finish =
            some { success := false, error := some timeoutErrorText })
    ∧ TIMEOUT_MS = 45000
    ∧ (runValidator [VEvent.exitEv (some 0), VEvent.timeoutEv]).finish =
        some { success := false, error := some timeoutErrorText } := by
  refine ⟨?_, ?_, ?_, ?_, rfl, by decide⟩
  · intro s hs
    simp [stepEvent, hs]
  · intro s hs
    simp [stepEvent, hs]
  · intro s c hs hc
    simp [stepEvent, hs, hc, finishWith]
  · intro s hs
    simp [stepEvent, hs, finishWith]

/-- Witness for C10 at a concrete unresolved state. -/
theorem clean_exit_resolves_only_by_timeout_witness :
    stepEvent {} (VEvent.exitEv (some 0)) = ({} : VState)
    ∧ stepEvent {} (VEvent.exitEv none) = ({} : VState)
    ∧ (stepEvent {} (VEvent.exitEv (some 2))).resolved = true
    ∧ (stepEvent {} VEvent.timeoutEv).finish =
        some { success := false, error := some timeoutErrorText } :=
  ⟨clean_exit_resolves_only_by_timeout.1 {} rfl,
   clean_exit_resolves_only_by_timeout.2.1 {} rfl,
   (clean_exit_resolves_only_by_timeout.2.2.1 {} 2 rfl (by decide)).1,
   (clean_exit_resolves_only_by_timeout.2.2.2.1 {} rfl).2⟩

/-! ## C3 — handshake error semantics -/

/-- C3: in any run state that has not resolved yet, a JSON-RPC error
response on id 1 (`initialize`) immediately resolves the run as failed
(and aborts the message loop), while a JSON-RPC error on id 2
(`tools/list`), id 3 (`resources/list`) or id 4 (`prompts/list`) stores
an empty list for that capability and — when `initialize` and the other
two lists have succeeded — resolves the run as an overall success. -/
theorem handshake_error_semantics :
    (∀ (s : VState) (m : RpcMsg) (e : RpcError),
        s.resolved = false → m.error = some e → m.id = 1 →
        (stepMsg s m).2 = true
          ∧ (stepMsg s m).1.resolved = true
          ∧ (stepMsg s m).1.finish = some (initErrorResult e)
          ∧ (initErrorResult e).success = false)
    ∧ (∀ (s : VState) (m : RpcMsg) (e : RpcError),
        s.resolved = false → s.initDone = true → s.resourcesDone = true →
        s.promptsDone = true → s.toolsDone = false →
        m.error = some e → m.id = 2 →
        ∃ r, (stepMsg s m).1.finish = some r ∧ r.success = true ∧ r.tools = some [])
    ∧ (∀ (s : VState) (m : RpcMsg) (e : RpcError),
        s.resolved = false → s.initDone = true → s.toolsDone = true →
        s.promptsDone = true → s.resourcesDone = false →
        m.error = some e → m.id = 3 →
        ∃ r, (stepMsg s m).1.finish = some r ∧ r.success = true ∧ r.resources = some [])
    ∧ (∀ (s : VState) (m : RpcMsg) (e : RpcError),
        s.resolved = false → s.initDone = true → s.toolsDone = true →
        s.resourcesDone = true → s.promptsDone = false →
        m.error = some e → m.id = 4 →
        ∃ r, (stepMsg s m).1.finish = some r ∧ r.success = true ∧ r.prompts = some []) := by
  refine ⟨?_, ?_, ?_, ?_⟩
  · intro s m e hs he hid
    obtain ⟨mid, mres, merr⟩ := m
    simp only at he hid
    subst he hid
    simp [stepMsg, finishWith, hs, initErrorResult]
  · intro s m e hs hinit hres hprompts htools he hid
    obtain ⟨mid, mres, merr⟩ := m
    simp only at he hid
    subst he hid
    cases mres <;>
      simp [stepMsg, finishWith, hs, hinit, hres, hprompts, htools]
  · intro s m e hs hinit htools hprompts hresources he hid
    obtain ⟨mid, mres, merr⟩ := m
    simp only at he hid
    subst he hid
    cases mres <;>
      simp [stepMsg, finishWith, hs, hinit, htools, hprompts, hresources]
  · intro s m e hs hinit htools hresources hprompts he hid
    obtain ⟨mid, mres, merr⟩ := m
    simp only at he hid
    subst he hid
    cases mres <;>
      simp [stepMsg, finishWith, hs, hinit, htools, hresources, hprompts]

/-- Witness for C3: concrete unresolved states and concrete error
messages for each of the four ids. -/
theorem handshake_error_semantics_witness :
    ((stepMsg {} { id := 1, error := some { message := "boom".toList } }).2 = true
      ∧ (stepMsg {} { id := 1, error := some { message := "boom".toList } }).1.resolved = true)
    ∧ (∃ r, (stepMsg { initDone := true, resourcesDone := true, promptsDone := true }
          { id := 2, error := some { message := "Method not found".toList } }).1.finish = some r
        ∧ r.success = true ∧ r.tools = some [])
    ∧ (∃ r, (stepMsg { initDone := true, toolsDone := true, promptsDone := true }
          { id := 3, error := some { message := "Method not found".toList } }).1.finish = some r
        ∧ r.success = true ∧ r.resources = some [])
    ∧ (∃ r, (stepMsg { initDone := true, toolsDone := true, resourcesDone := true }
          { id := 4, error := some { message := "Method not found".toList } }).1.finish = some r
        ∧ r.success = true ∧ r.prompts = some []) :=
  ⟨⟨(handshake_error_semantics.1 {} _ _ rfl rfl rfl).1,
    (handshake_error_semantics.1 {} _ _ rfl rfl rfl).2.1⟩,
   handshake_error_semantics.2.1 { initDone := true, resourcesDone := true, promptsDone := true }
     _ _ rfl rfl rfl rfl rfl rfl rfl,
   handshake_error_semantics.2.2.1 { initDone := true, toolsDone := true, promptsDone := true }
     _ _ rfl rfl rfl rfl rfl rfl rfl,
   handshake_error_semantics.2.2.2 { initDone := true, toolsDone := true, resourcesDone := true }
     _ _ rfl rfl rfl rfl rfl rfl rfl⟩

/-! ## C2 — environment of the direct (fallback) child -/

/-- Counterexample to C2 as stated: with Docker unavailable and a Node
run command, `validateMcpServerSafe` falls back to the direct spawn,
whose environment is `{ ...process.env, NODE_ENV: "production" }` — a
host-only variable (never explicitly supplied) flows into the validated
child. -/
theorem direct_env_contains_host_cex :
    selectExecMode false "npx -y pkg".toList = ExecMode.direct
    ∧ ("HOST_SECRET".toList, "s3cret".toList) ∈
        mcpSpawnEnv [("HOST_SECRET".toList, "s3cret".toList)]
    ∧ "HOST_SECRET".toList ≠ "NODE_ENV".toList := by
  decide

/-- C2 amended: in direct (fallback) mode the child inherits the host's
full environment — every host variable other than `NODE_ENV` flows
through unchanged and `NODE_ENV` is forced to `production`; it is only
the isolated Docker mode whose injected `-e` flags are built purely
from the explicitly supplied variables (plus `MCP_INSTALL_CMD`),
independent of the host environment. -/
theorem direct_env_spreads_host :
    (∀ (hostEnv : List (Str × Str)) (k v : Str),
        (k, v) ∈ hostEnv → k ≠ "NODE_ENV".toList → (k, v) ∈ mcpSpawnEnv hostEnv)
    ∧ (∀ hostEnv : List (Str × Str),
        ("NODE_ENV".toList, "production".toList) ∈ mcpSpawnEnv hostEnv)
    ∧ (∀ (envVars : List (Str × Str)) (installCommand : Str) (f : Str),
        f ∈ dockerEnvFlags envVars installCommand →
        f = "-e".toList ∨ (∃ kv ∈ envVars, f = kv.1 ++ "=".toList ++ kv.2)
          ∨ f = "MCP_INSTALL_CMD=".toList ++ installCommand) := by
  refine ⟨?_, ?_, ?_⟩
  · intro hostEnv k v hkv hne
    unfold mcpSpawnEnv
    split
    · exact List.mem_map.mpr ⟨(k, v), hkv, if_neg hne⟩
    · exact List.mem_append_left _ hkv
  · intro hostEnv
    unfold mcpSpawnEnv
    split
    · next hany =>
      obtain ⟨p, hp, hp1⟩ := List.any_eq_true.mp hany
      have hp1' : p.1 = "NODE_ENV".toList := by simpa using hp1
      exact List.mem_map.mpr ⟨p, hp, by simp [hp1']⟩
    · exact List.mem_append_right _ (by simp)
  · intro envVars installCommand f hf
    unfold dockerEnvFlags at hf
    rcases List.mem_append.mp hf with hf | hf
    · obtain ⟨kv, hkv, hfin⟩ := List.mem_flatMap.mp hf
      simp only [List.mem_cons, List.not_mem_nil, or_false] at hfin
      rcases hfin with hfin | hfin
      · exact Or.inl hfin
      · exact Or.inr (Or.inl ⟨kv, hkv, hfin⟩)
    · simp only [List.mem_cons, List.not_mem_nil, or_false] at hf
      rcases hf with hf | hf
      · exact Or.inl hf
      · exact Or.inr (Or.inr hf)

/-- Witness for C2's amended statement at a concrete host environment
and explicit variable list. -/
theorem direct_env_spreads_host_witness :
    ("PATH".toList, "/bin".toList) ∈ mcpSpawnEnv [("PATH".toList, "/bin".toList)]
    ∧ ("NODE_ENV".toList, "production".toList) ∈ mcpSpawnEnv [("PATH".toList, "/bin".toList)]
    ∧ ("KEY=v".toList = "-e".toList
        ∨ (∃ kv ∈ [("KEY".toList, "v".toList)], "KEY=v".toList = kv.1 ++ "=".toList ++ kv.2)
        ∨ "KEY=v".toList = "MCP_INSTALL_CMD=".toList ++ "npx -y pkg".toList) :=
  ⟨direct_env_spreads_host.1 [("PATH".toList, "/bin".toList)] "PATH".toList "/bin".toList
      (by decide) (by decide),
   direct_env_spreads_host.2.1 [("PATH".toList, "/bin".toList)],
   direct_env_spreads_host.2.2 [("KEY".toList, "v".toList)] "npx -y pkg".toList
      "KEY=v".toList (by decide)⟩

/-! ## C8 — popularity counts and the code-host source -/

/-- One merge-missing step never changes a truthy (nonzero) stars
field. -/
theorem mergeMissingStep_stars (m : MergedServer) (s : DiscoveredServer)
    (h : numTruthy m.stars = true) : (mergeMissingStep m s).stars = m.stars := by
  unfold mergeMissingStep
  simp only [apply_ite MergedServer.stars]
  simp [h]

/-- The whole merge-missing loop never changes a truthy (nonzero) stars
field. -/
theorem mergeMissing_stars (rest : List DiscoveredServer) (m : MergedServer)
    (h : numTruthy m.stars = true) :
    (rest.foldl mergeMissingStep m).stars = m.stars := by
  induction rest generalizing m with
  | nil => rfl
  | cons s rest ih =>
    have hstep := mergeMissingStep_stars m s h
    rw [List.foldl_cons, ih (mergeMissingStep m s) (by rw [hstep]; exact h), hstep]

/-- The record used as the counterexample github view: stars defined
but zero. -/
def ghZeroStars : DiscoveredServer :=
  { canonicalUrl := [], name := "g".toList, source := Source.github, stars := some 0 }

/-- A package-index view of the same project with nonzero stars. -/
def pyThousandStars : DiscoveredServer :=
  { canonicalUrl := [], name := "p".toList, source := Source.pypi, stars := some 1000 }

/-- Counterexample to C8 as stated: the group contains a GitHub record
that defines `stars = 0` and a pypi record with `stars = 1000`; the
merged stars are `1000`, not the GitHub value `0` — the
`!result.stars` truthiness guard of the merge-missing loop treats the
GitHub `0` as unset and lets the other source overwrite it. -/
theorem stars_zero_overwritten_cex :
    ghZeroStars.source = Source.github ∧ ghZeroStars.stars = some 0
    ∧ pyThousandStars.source ≠ Source.github
    ∧ (mergeGroup [] [ghZeroStars, pyThousandStars]).map (fun m => m.stars)
        = some (some 1000)
    ∧ (some 1000 : Option Nat) ≠ some 0 := by
  decide

/-- C8 amended: whenever the first GitHub record of the group (in input
order) defines a **nonzero** stars value `n`, the merged stars equal
`n`, whatever the other records report and whatever the overall source
priority would have chosen; a GitHub stars value of `0` is instead
treated as unset by the fill-in loop and can be overwritten. -/
theorem stars_from_github_when_nonzero
    (url : Str) (servers : List DiscoveredServer) (g : DiscoveredServer) (n : Nat)
    (hfind : servers.find? (fun s => s.source = Source.github) = some g)
    (hstars : g.stars = some n) (hn : n ≠ 0) :
    ∃ m, mergeGroup url servers = some m ∧ m.stars = some n := by
  have hne : servers ≠ [] := by
    rintro rfl
    simp at hfind
  have hempty : ¬(servers.isEmpty = true) := by
    cases servers with
    | nil => exact absurd rfl hne
    | cons a t => simp
  unfold mergeGroup
  rw [if_neg hempty]
  cases hsort : sortByPriority servers with
  | nil =>
    have hperm : List.Perm (sortByPriority servers) servers :=
      List.perm_insertionSort priorityLE servers
    rw [hsort] at hperm
    exact absurd hperm.nil_eq.symm hne
  | cons primary rest =>
    have h2 : (applyFieldPriority servers
        { seedMerged url primary servers with
          sourceData := collectSourceData servers }).stars = some n := by
      simp [applyFieldPriority, fieldOverride, hfind, hstars]
    refine ⟨_, rfl, ?_⟩
    rw [mergeMissing_stars rest _ (by rw [h2]; simp [numTruthy, hn]), h2]

/-- A github view with 500 stars, for the C8 witness. -/
def ghFiveHundred : DiscoveredServer :=
  { canonicalUrl := [], name := "g".toList, source := Source.github, stars := some 500 }

/-- An npm view with 1000 stars, for the C8 witness. -/
def npmThousandStars : DiscoveredServer :=
  { canonicalUrl := [], name := "n".toList, source := Source.npm, stars := some 1000 }

/-- Witness for C8's amended statement at a concrete two-record
group. -/
theorem stars_from_github_when_nonzero_witness :
    ∃ m, mergeGroup [] [ghFiveHundred, npmThousandStars] = some m ∧ m.stars = some 500 :=
  stars_from_github_when_nonzero [] [ghFiveHundred, npmThousandStars] ghFiveHundred 500
    (by decide) rfl (by decide)

/-! ## C4 — idempotent submission -/

/-- The server row used in the C4 counterexample. -/
def cexServer : ServerRow :=
  { id := "srv".toList, installCommand := some "npx -y pkg".toList }

/-- An in-flight `validating` submission by user `u` for `srv`. -/
def cexValidatingSub : Submission :=
  { id := 1, serverId := "srv".toList, userId := "u".toList, status := VStatus.validating }

/-- Counterexample to C4 as stated: the duplicate check filters on
`status = "pending"` only, so with an existing `validating` request by
the same user for the same server, a second create call inserts and
returns a brand-new request instead of the existing one. -/
theorem validating_not_deduplicated_cex :
    cexValidatingSub.status = VStatus.validating
    ∧ cexValidatingSub.serverId = "srv".toList
    ∧ cexValidatingSub.userId = "u".toList
    ∧ (createValidation [cexServer] [cexValidatingSub] 2
        (some ⟨"u".toList, "u".toList⟩) "srv".toList none).1 = CreateResp.created 2
    ∧ CreateResp.created 2 ≠ CreateResp.existingSub cexValidatingSub.id := by
  decide

/-- C4 amended: submission creation is idempotent with respect to
`pending` requests only — whenever a request from the same requester
for the same target is `pending`, a second create call returns that
existing request id and leaves the table unchanged (a `validating`
request does not suppress creation, as the counterexample shows). -/
theorem pending_submission_idempotent
    (servers : List ServerRow) (subs : List Submission) (freshId : Nat)
    (user : SessionUser) (serverId : Str) (installCommand : Option Str)
    (server : ServerRow) (ex : Submission)
    (hsid : serverId ≠ [])
    (hserver : servers.find? (fun s => s.id = serverId) = some server)
    (hcmd : strTruthy (strOr installCommand server.installCommand) = true)
    (hcustom : (if strTruthy installCommand then
        validateInstallCommand (installCommand.getD []) server.packageName
      else { valid := true }).valid = true)
    (hex : subs.find? (fun s => s.serverId = serverId && s.userId = user.userId
        && s.status = VStatus.pending) = some ex) :
    createValidation servers subs freshId (some user) serverId installCommand
      = (CreateResp.existingSub ex.id, subs) := by
  simp only [createValidation]
  rw [if_neg hsid, hserver]
  simp only [hcmd, Bool.not_true, Bool.false_eq_true, if_false]
  simp only [hcustom, Bool.not_true, Bool.false_eq_true, if_false]
  rw [hex]

/-- Witness for C4's amended statement: a concrete pending submission
is returned unchanged. -/
theorem pending_submission_idempotent_witness :
    createValidation [cexServer]
        [{ id := 1, serverId := "srv".toList, userId := "u".toList,
           status := VStatus.pending }] 2
        (some ⟨"u".toList, "u".toList⟩) "srv".toList none
      = (CreateResp.existingSub 1,
         [{ id := 1, serverId := "srv".toList, userId := "u".toList,
            status := VStatus.pending }]) :=
  pending_submission_idempotent [cexServer] _ 2 ⟨"u".toList, "u".toList⟩ "srv".toList none
    cexServer
    { id := 1, serverId := "srv".toList, userId := "u".toList, status := VStatus.pending }
    (by decide) (by decide) (by decide) (by decide) (by decide)

/-! ## C1 — secret lifecycle at terminal states -/

/-- `find?` by id through an id-preserving row update. -/
theorem find?_updateSubmission (subs : List Submission) (vid : Nat)
    (f : Submission → Submission) (hid : ∀ s, (f s).id = s.id) :
    (updateSubmission subs vid f).find? (fun s => s.id = vid)
      = (subs.find? (fun s => s.id = vid)).map f := by
  induction subs with
  | nil => rfl
  | cons a t ih =>
    by_cases ha : a.id = vid
    · simp [updateSubmission, ha, hid]
    · simp only [updateSubmission] at ih ⊢
      simp [ha, ih]

/-- A submission with stored ciphertext, mid-validation. -/
def cexCipherSub : Submission :=
  { id := 1, serverId := "srv".toList, userId := "u".toList,
    status := VStatus.validating, encryptedCredentials := some "iv:tag:ct".toList }

/-- Counterexample to C1 as stated: cancelling a `validating` request
that has ciphertext stored succeeds, but the row update sets only the
status — the encrypted credentials are still stored against the
cancelled request. -/
theorem cancel_keeps_ciphertext_cex :
    (cancelValidation [cexCipherSub] (some ⟨"u".toList, "u".toList⟩) 1).1
        = CancelResp.cancelled
    ∧ ((cancelValidation [cexCipherSub] (some ⟨"u".toList, "u".toList⟩) 1).2.find?
          (fun s => s.id = 1)).map (fun s => (s.status, s.encryptedCredentials))
        = some (VStatus.cancelled, some "iv:tag:ct".toList)
    ∧ some "iv:tag:ct".toList ≠ (none : Option Str) := by
  decide

/-- C1 amended: a request the asynchronous worker drives to a terminal
state (`completed` or any of its `failed` exits) ends with no
ciphertext stored, but the cancel operation — applicable from `pending`
or `validating` — rewrites only the status and leaves any stored
encrypted credentials in place. -/
theorem worker_purges_cancel_keeps_ciphertext :
    (∀ (validationId : Nat) (subs : List Submission) (servers : List ServerRow)
        (decrypt : Str → Option (List (Str × Str))) (dockerResult : ValidationResult)
        (sub : Submission),
        subs.find? (fun s => s.id = validationId) = some sub →
        sub.status = VStatus.validating →
        (runWActions sub
            (workerTrace validationId subs servers decrypt dockerResult)).encryptedCredentials
          = none)
    ∧ (∀ (subs : List Submission) (user : SessionUser) (vid : Nat) (sub : Submission),
        subs.find? (fun s => s.id = vid) = some sub →
        sub.userId = user.userId →
        (sub.status = VStatus.pending ∨ sub.status = VStatus.validating) →
        (cancelValidation subs (some user) vid).1 = CancelResp.cancelled
          ∧ ((cancelValidation subs (some user) vid).2.find? (fun s => s.id = vid))
              = some { sub with status := VStatus.cancelled }) := by
  constructor
  · intro validationId subs servers decrypt dockerResult sub hfind hstatus
    simp only [workerTrace, hfind]
    rw [hstatus, if_neg (fun h => h rfl)]
    cases hserver : servers.find? (fun s => s.id = sub.serverId) with
    | none => simp [runWActions, applyWAction]
    | some server =>
      cases hcmd : strTruthy (strOr sub.installCommand server.installCommand) with
      | false => simp [hcmd, runWActions, applyWAction]
      | true =>
        simp only [hcmd, Bool.not_true]
        rw [if_neg (by decide)]
        cases hcr : sub.encryptedCredentials with
        | none =>
          cases hsucc : dockerResult.success <;>
            simp [hsucc, runWActions, applyWAction]
        | some blob =>
          cases hdec : decrypt blob with
          | none => simp [hdec, runWActions, applyWAction]
          | some creds =>
            cases hsucc : dockerResult.success <;>
              simp [hdec, hsucc, runWActions, applyWAction]
  · intro subs user vid sub hfind huser hstatus
    have hcancel : cancelValidation subs (some user) vid
        = (CancelResp.cancelled,
           updateSubmission subs vid (fun s => { s with status := VStatus.cancelled })) := by
      simp only [cancelValidation, hfind]
      rw [if_neg (by simp [huser])]
      rw [if_neg (by rcases hstatus with h | h <;> simp [h])]
    refine ⟨by rw [hcancel], ?_⟩
    rw [hcancel]
    simp only
    rw [find?_updateSubmission subs vid
      (fun s => { s with status := VStatus.cancelled }) (fun s => rfl), hfind]
    rfl

/-- Witness for C1's amended statement: a failing worker run purges the
ciphertext; cancelling `cexCipherSub` keeps it. -/
theorem worker_purges_cancel_keeps_ciphertext_witness :
    (runWActions cexCipherSub
        (workerTrace 1 [cexCipherSub] [] (fun _ => none)
          { success := false })).encryptedCredentials = none
    ∧ ((cancelValidation [cexCipherSub] (some ⟨"u".toList, "u".toList⟩) 1).1
          = CancelResp.cancelled
        ∧ ((cancelValidation [cexCipherSub] (some ⟨"u".toList, "u".toList⟩) 1).2.find?
            (fun s => s.id = 1)) = some { cexCipherSub with status := VStatus.cancelled }) :=
  ⟨worker_purges_cancel_keeps_ciphertext.1 1 [cexCipherSub] [] (fun _ => none)
      { success := false } cexCipherSub (by decide) rfl,
   worker_purges_cancel_keeps_ciphertext.2 [cexCipherSub] ⟨"u".toList, "u".toList⟩ 1
      cexCipherSub (by decide) rfl (Or.inr rfl)⟩

/-! ## C7 — when the worker deletes the ciphertext -/

/-- The validating submission of the C7 counterexample, with stored
ciphertext. -/
def c7sub : Submission :=
  { id := 1, serverId := "srv".toList, userId := "u".toList,
    status := VStatus.validating, encryptedCredentials := some "ct".toList }

/-- Its server row. -/
def c7server : ServerRow :=
  { id := "srv".toList, installCommand := some "npx -y pkg".toList }

/-- A decryption that succeeds. -/
def c7decrypt : Str → Option (List (Str × Str)) :=
  fun _ => some [("KEY".toList, "v".toList)]

/-- Counterexample to C7 as stated: on a successful run the worker's
persisted-action order is decrypt → **execute** → clear → record
result; the ciphertext is still stored when execution starts (it is
deleted only after `validateInDocker` returns), contradicting
"deleting ciphertext the instant it is read, before execution". -/
theorem ciphertext_survives_execution_cex :
    workerTrace 1 [c7sub] [c7server] c7decrypt { success := true }
      = [WAction.readAndDecrypt, WAction.execValidation, WAction.clearCreds,
         WAction.setCompleted, WAction.updServer]
    ∧ (rowAtExec c7sub
        (workerTrace 1 [c7sub] [c7server] c7decrypt
          { success := true })).encryptedCredentials = some "ct".toList
    ∧ some "ct".toList ≠ (none : Option Str) := by
  decide

/-- C7 amended: the worker deletes the stored ciphertext immediately
**after** executing the validation and before recording the outcome —
on every run that reaches execution, the trace is
(optional decrypt) → execute → clear-credentials → outcome, the row
still carries its ciphertext at the moment execution starts, and no
ciphertext remains once the run finishes. -/
theorem ciphertext_cleared_after_execution
    (validationId : Nat) (subs : List Submission) (servers : List ServerRow)
    (decrypt : Str → Option (List (Str × Str))) (dockerResult : ValidationResult)
    (sub : Submission) (server : ServerRow)
    (hfind : subs.find? (fun s => s.id = validationId) = some sub)
    (hstatus : sub.status = VStatus.validating)
    (hserver : servers.find? (fun s => s.id = sub.serverId) = some server)
    (hcmd : strTruthy (strOr sub.installCommand server.installCommand) = true)
    (hdec : ∀ blob, sub.encryptedCredentials = some blob → (decrypt blob).isSome = true) :
    ∃ pre, workerTrace validationId subs servers decrypt dockerResult
        = pre ++ [WAction.execValidation, WAction.clearCreds]
          ++ (if dockerResult.success then [WAction.setCompleted, WAction.updServer]
              else [WAction.setFailed (dockerResult.error.getD [])])
      ∧ (pre = [] ∨ pre = [WAction.readAndDecrypt])
      ∧ (rowAtExec sub (workerTrace validationId subs servers decrypt
            dockerResult)).encryptedCredentials = sub.encryptedCredentials
      ∧ (runWActions sub (workerTrace validationId subs servers decrypt
            dockerResult)).encryptedCredentials = none := by
  have htr : ∃ pre, workerTrace validationId subs servers decrypt dockerResult
      = pre ++ [WAction.execValidation, WAction.clearCreds]
        ++ (if dockerResult.success then [WAction.setCompleted, WAction.updServer]
            else [WAction.setFailed (dockerResult.error.getD [])])
      ∧ (pre = [] ∨ pre = [WAction.readAndDecrypt]) := by
    simp only [workerTrace, hfind]
    rw [hstatus, if_neg (fun h => h rfl), hserver]
    simp only [hcmd, Bool.not_true]
    rw [if_neg (by decide)]
    cases hcr : sub.encryptedCredentials with
    | none => exact ⟨[], by simp, Or.inl rfl⟩
    | some blob =>
      obtain ⟨creds, hcreds⟩ := Option.isSome_iff_exists.mp (hdec blob hcr)
      simp only [hcreds]
      exact ⟨[WAction.readAndDecrypt], by simp, Or.inr rfl⟩
  obtain ⟨pre, htrace, hpre⟩ := htr
  refine ⟨pre, htrace, hpre, ?_, ?_⟩
  · rw [htrace, rowAtExec]
    rcases hpre with rfl | rfl <;>
      cases hsucc : dockerResult.success <;>
        simp [hsucc, runWActions, applyWAction]
  · rw [htrace]
    rcases hpre with rfl | rfl <;>
      cases hsucc : dockerResult.success <;>
        simp [hsucc, runWActions, applyWAction]

/-- Witness for C7's amended statement on the concrete run of the
counterexample records. -/
theorem ciphertext_cleared_after_execution_witness :
    ∃ pre, workerTrace 1 [c7sub] [c7server] c7decrypt { success := true }
        = pre ++ [WAction.execValidation, WAction.clearCreds]
          ++ (if ({ success := true } : ValidationResult).success then
                [WAction.setCompleted, WAction.updServer]
              else [WAction.setFailed (({ success := true } : ValidationResult).error.getD [])])
      ∧ (pre = [] ∨ pre = [WAction.readAndDecrypt])
      ∧ (rowAtExec c7sub (workerTrace 1 [c7sub] [c7server] c7decrypt
            { success := true })).encryptedCredentials = c7sub.encryptedCredentials
      ∧ (runWActions c7sub (workerTrace 1 [c7sub] [c7server] c7decrypt
            { success := true })).encryptedCredentials = none :=
  ciphertext_cleared_after_execution 1 [c7sub] [c7server] c7decrypt { success := true }
    c7sub c7server (by decide) rfl (by decide) (by decide)
    (fun blob hb => by simp [c7decrypt])

/-! ## C9 — canonicalization: helper lemmas -/

/-- `Char.ofNat` on the shifted lower-case code points. -/
theorem toLower_shift (n : Nat) (h1 : 65 ≤ n) (h2 : n ≤ 90) :
    (Char.ofNat (n + 32)).toNat = n + 32 := by
  interval_cases n <;> decide

theorem char_toLower_pos (c : Char) (h : c.toNat ≥ 65 ∧ c.toNat ≤ 90) :
    Char.toLower c = Char.ofNat (c.toNat + 32) := by
  unfold Char.toLower
  rw [if_pos h]

theorem char_toLower_neg (c : Char) (h : ¬(c.toNat ≥ 65 ∧ c.toNat ≤ 90)) :
    Char.toLower c = c := by
  unfold Char.toLower
  rw [if_neg h]

/-- ASCII lower-casing is idempotent. -/
theorem char_toLower_idem (c : Char) :
    Char.toLower (Char.toLower c) = Char.toLower c := by
  by_cases h : c.toNat ≥ 65 ∧ c.toNat ≤ 90
  · rw [char_toLower_pos c h]
    apply char_toLower_neg
    rw [toLower_shift c.toNat h.1 h.2]
    omega
  · rw [char_toLower_neg c h, char_toLower_neg c h]

/-- Lower-casing cannot produce a character below code point 65 (like
`/`, `.` or `#`) out of a different character. -/
theorem char_toLower_ne (c d : Char) (hd : d.toNat < 65) (hc : c ≠ d) :
    Char.toLower c ≠ d := by
  by_cases h : c.toNat ≥ 65 ∧ c.toNat ≤ 90
  · rw [char_toLower_pos c h]
    intro heq
    have hnat := congrArg Char.toNat heq
    rw [toLower_shift c.toNat h.1 h.2] at hnat
    omega
  · rw [char_toLower_neg c h]
    exact hc

theorem lowerB_idem (s : Str) : lowerB (lowerB s) = lowerB s := by
  induction s with
  | nil => rfl
  | cons a t ih =>
    simp only [lowerB, List.map_cons] at ih ⊢
    rw [char_toLower_idem, ih]

theorem lowerB_ne_nil {s : Str} (h : s ≠ []) : lowerB s ≠ [] := by
  cases s with
  | nil => exact absurd rfl h
  | cons a t => simp [lowerB]

/-- `takeWhile` across a satisfying block followed by a failing
character. -/
theorem takeWhile_middle {α : Type} (p : α → Bool) (O : List α) (c : α) (R : List α)
    (hO : ∀ x ∈ O, p x = true) (hc : p c = false) :
    (O ++ c :: R).takeWhile p = O := by
  induction O with
  | nil => simp [List.takeWhile_cons, hc]
  | cons a t ih =>
    have ha : p a = true := hO a (List.mem_cons_self a t)
    simp [List.takeWhile_cons, ha,
      ih (fun x hx => hO x (List.mem_cons_of_mem a hx))]

theorem dropWhile_middle {α : Type} (p : α → Bool) (O : List α) (c : α) (R : List α)
    (hO : ∀ x ∈ O, p x = true) (hc : p c = false) :
    (O ++ c :: R).dropWhile p = c :: R := by
  induction O with
  | nil => simp [List.dropWhile_cons, hc]
  | cons a t ih =>
    have ha : p a = true := hO a (List.mem_cons_self a t)
    simp [List.dropWhile_cons, ha,
      ih (fun x hx => hO x (List.mem_cons_of_mem a hx))]

theorem takeWhile_all {α : Type} (p : α → Bool) (l : List α)
    (h : ∀ x ∈ l, p x = true) : l.takeWhile p = l := by
  induction l with
  | nil => rfl
  | cons a t ih =>
    have ha : p a = true := h a (List.mem_cons_self a t)
    simp [List.takeWhile_cons, ha, ih (fun x hx => h x (List.mem_cons_of_mem a hx))]

theorem mem_of_takeWhile {α : Type} {p : α → Bool} {l : List α} {x : α}
    (h : x ∈ l.takeWhile p) : x ∈ l ∧ p x = true := by
  induction l with
  | nil => simp [List.takeWhile] at h
  | cons a t ih =>
    rw [List.takeWhile_cons] at h
    by_cases ha : p a = true
    · rw [if_pos ha] at h
      rcases List.mem_cons.mp h with rfl | h'
      · exact ⟨List.mem_cons_self x t, ha⟩
      · obtain ⟨hm, hp⟩ := ih h'
        exact ⟨List.mem_cons_of_mem a hm, hp⟩
    · rw [if_neg ha] at h
      exact absurd h (List.not_mem_nil x)

/-- Characters of a matched `startsWithB` pattern occur in the
string. -/
theorem mem_of_startsWithB {p s : Str} (h : startsWithB p s = true) :
    ∀ c ∈ p, c ∈ s := by
  induction p generalizing s with
  | nil => intro c hc; exact absurd hc (List.not_mem_nil c)
  | cons a t ih =>
    cases s with
    | nil => simp [startsWithB] at h
    | cons b u =>
      simp only [startsWithB, Bool.and_eq_true, decide_eq_true_eq] at h
      intro c hc
      rcases List.mem_cons.mp hc with rfl | hc'
      · rw [h.1]; exact List.mem_cons_self b u
      · exact List.mem_cons_of_mem b (ih h.2 c hc')

/-- A repo segment without dots keeps its `.git`-stripping a no-op. -/
theorem dropSuffix_no_dot {R : Str} (h : ∀ x ∈ R, x ≠ '.') :
    dropSuffixIfB ".git".toList R = R := by
  unfold dropSuffixIfB
  rw [if_neg]
  intro hsw
  unfold endsWithB at hsw
  have hdot : '.' ∈ R.reverse :=
    mem_of_startsWithB hsw '.' (by decide)
  exact h '.' (List.mem_reverse.mp hdot) rfl

theorem dropPrefixCh_append (pat X : Str) : dropPrefixCh pat (pat ++ X) = some X := by
  induction pat with
  | nil => rfl
  | cons p ps ih => simp [dropPrefixCh, ih]

/-- Successful `ghTryAt` on the exact shape the normalizer itself
emits. -/
theorem ghTryAt_output (O R : Str) (hO1 : O ≠ []) (hO2 : ∀ x ∈ O, x ≠ '/')
    (hR1 : R ≠ []) (hR2 : ∀ x ∈ R, x ≠ '/' ∧ x ≠ '.' ∧ x ≠ '#') :
    ghTryAt ('g' :: 'i' :: 't' :: 'h' :: 'u' :: 'b' :: '.' :: 'c' :: 'o' :: 'm' :: '/'
      :: (O ++ '/' :: R)) = some (O, R) := by
  have hdp : dropPrefixCh "github.com".toList
      ('g' :: 'i' :: 't' :: 'h' :: 'u' :: 'b' :: '.' :: 'c' :: 'o' :: 'm' :: '/'
        :: (O ++ '/' :: R)) = some ('/' :: (O ++ '/' :: R)) := by
    exact dropPrefixCh_append "github.com".toList ('/' :: (O ++ '/' :: R))
  unfold ghTryAt
  rw [hdp]
  have htw : (O ++ '/' :: R).takeWhile (fun c => c ≠ '/') = O :=
    takeWhile_middle _ O '/' R
      (fun x hx => by simpa using hO2 x hx) (by simp)
  have hdw : (O ++ '/' :: R).dropWhile (fun c => c ≠ '/') = '/' :: R :=
    dropWhile_middle _ O '/' R
      (fun x hx => by simpa using hO2 x hx) (by simp)
  have htw2 : R.takeWhile (fun c => c ≠ '/' && c ≠ '.' && c ≠ '#') = R :=
    takeWhile_all _ R (fun x hx => by
      obtain ⟨h1, h2, h3⟩ := hR2 x hx
      simp [h1, h2, h3])
  simp only [htw, hdw, htw2]
  rw [if_pos (by simp), if_neg hO1]
  rw [if_neg hR1]

/-- One scan step when the head position cannot match. -/
theorem ghFind_cons_none {c : Char} {t : Str} (h : ghTryAt (c :: t) = none) :
    ghFind (c :: t) = ghFind t := by
  simp [ghFind, h]

/-- One scan step when the head position matches. -/
theorem ghFind_cons_some {c : Char} {t : Str} {r : Str × Str}
    (h : ghTryAt (c :: t) = some r) : ghFind (c :: t) = some r := by
  simp [ghFind, h]

/-- The scan over the canonical output finds exactly the owner/repo it
was built from: the eight `https://` characters cannot start a match,
and position 8 matches. -/
theorem ghFind_output (O R : Str) (hO1 : O ≠ []) (hO2 : ∀ x ∈ O, x ≠ '/')
    (hR1 : R ≠ []) (hR2 : ∀ x ∈ R, x ≠ '/' ∧ x ≠ '.' ∧ x ≠ '#') :
    ghFind ('h' :: 't' :: 't' :: 'p' :: 's' :: ':' :: '/' :: '/'
      :: 'g' :: 'i' :: 't' :: 'h' :: 'u' :: 'b' :: '.' :: 'c' :: 'o' :: 'm' :: '/'
      :: (O ++ '/' :: R)) = some (O, R) := by
  have step : ∀ (c : Char) (t : Str), c ≠ 'g' → ghTryAt (c :: t) = none := by
    intro c t hc
    unfold ghTryAt
    have : dropPrefixCh "github.com".toList (c :: t) = none := by
      simp only [dropPrefixCh]
      rw [if_neg hc]
    rw [this]
  rw [ghFind_cons_none (step _ _ (by decide)), ghFind_cons_none (step _ _ (by decide)),
    ghFind_cons_none (step _ _ (by decide)), ghFind_cons_none (step _ _ (by decide)),
    ghFind_cons_none (step _ _ (by decide)), ghFind_cons_none (step _ _ (by decide)),
    ghFind_cons_none (step _ _ (by decide)), ghFind_cons_none (step _ _ (by decide))]
  exact ghFind_cons_some (ghTryAt_output O R hO1 hO2 hR1 hR2)

/-- What a successful match guarantees about the captured owner and
repo: owner is a nonempty run without `/`, repo a nonempty run without
`/`, `.`, `#`. -/
theorem ghTryAt_some_inv {s : Str} {o rp : Str} (h : ghTryAt s = some (o, rp)) :
    o ≠ [] ∧ (∀ x ∈ o, x ≠ '/') ∧ rp ≠ []
      ∧ (∀ x ∈ rp, x ≠ '/' ∧ x ≠ '.' ∧ x ≠ '#') := by
  simp only [ghTryAt] at h
  split at h
  · exact absurd h (by simp)
  · exact absurd h (by simp)
  · next sep rest heq =>
    by_cases hsep : (sep = '/' || sep = ':') = true
    · rw [if_pos hsep] at h
      by_cases hown : rest.takeWhile (fun c => c ≠ '/') = []
      · rw [if_pos hown] at h
        exact absurd h (by simp)
      · rw [if_neg hown] at h
        cases hdw : rest.dropWhile (fun c => c ≠ '/') with
        | nil =>
          rw [hdw] at h
          exact absurd h (by simp)
        | cons slash afterSlash =>
          simp only [hdw] at h
          by_cases hrepo :
              afterSlash.takeWhile (fun c => c ≠ '/' && c ≠ '.' && c ≠ '#') = []
          · rw [if_pos hrepo] at h
            exact absurd h (by simp)
          · rw [if_neg hrepo] at h
            injection h with h2
            injection h2 with ho hr
            refine ⟨?_, ?_, ?_, ?_⟩
            · rw [← ho]; exact hown
            · intro x hx
              rw [← ho] at hx
              have := (mem_of_takeWhile hx).2
              simpa using this
            · rw [← hr]; exact hrepo
            · intro x hx
              rw [← hr] at hx
              have := (mem_of_takeWhile hx).2
              simp only [Bool.and_eq_true, decide_eq_true_eq] at this
              exact ⟨this.1.1, this.1.2, this.2⟩
    · rw [if_neg hsep] at h
      exact absurd h (by simp)

/-- The scan inherits the capture invariants. -/
theorem ghFind_some_inv {s : Str} {o rp : Str} (h : ghFind s = some (o, rp)) :
    o ≠ [] ∧ (∀ x ∈ o, x ≠ '/') ∧ rp ≠ []
      ∧ (∀ x ∈ rp, x ≠ '/' ∧ x ≠ '.' ∧ x ≠ '#') := by
  induction s with
  | nil => simp [ghFind] at h
  | cons c t ih =>
    cases hta : ghTryAt (c :: t) with
    | some r =>
      rw [ghFind_cons_some hta] at h
      obtain rfl : r = (o, rp) := by injection h
      exact ghTryAt_some_inv hta
    | none =>
      rw [ghFind_cons_none hta] at h
      exact ih h

/-- Shape of every successful normalization: lower-cased owner, a
slash, and a lower-cased dot-free repo, behind the fixed HTTPS
prefix. -/
theorem normalize_some_form {u r : Str} (h : normalizeGitHubUrl u = some r) :
    ∃ o rp, (o ≠ [] ∧ (∀ x ∈ o, x ≠ '/') ∧ rp ≠ []
        ∧ (∀ x ∈ rp, x ≠ '/' ∧ x ≠ '.' ∧ x ≠ '#'))
      ∧ r = "https://github.com/".toList ++ lowerB o ++ '/' :: lowerB rp := by
  simp only [normalizeGitHubUrl] at h
  split at h
  · exact absurd h (by simp)
  · split at h
    · exact absurd h (by simp)
    · next owner repo heq =>
      obtain ⟨ho1, ho2, hr1, hr2⟩ := ghFind_some_inv heq
      have hnd : ∀ x ∈ lowerB repo, x ≠ '.' := fun x hx => by
        obtain ⟨y, hy, rfl⟩ := List.mem_map.mp hx
        exact char_toLower_ne y '.' (by decide) (hr2 y hy).2.1
      rw [dropSuffix_no_dot hnd] at h
      injection h with h2
      refine ⟨owner, repo, ⟨ho1, ho2, hr1, hr2⟩, ?_⟩
      rw [← h2]
      simp [List.append_assoc]

/-- C9: normalization is idempotent on every URL it accepts, and the
`.git`-suffixed HTTPS form and the SSH form of the same repository
normalize to the same identity string. -/
theorem normalize_idempotent_format_insensitive :
    (∀ u r : Str, normalizeGitHubUrl u = some r → normalizeGitHubUrl r = some r)
    ∧ normalizeGitHubUrl "https://github.com/Foo/Bar.git".toList
        = some "https://github.com/foo/bar".toList
    ∧ normalizeGitHubUrl "git@github.com:foo/bar".toList
        = normalizeGitHubUrl "https://github.com/Foo/Bar.git".toList := by
  refine ⟨?_, by decide, by decide⟩
  intro u r h
  obtain ⟨o, rp, ⟨ho1, ho2, hr1, hr2⟩, rfl⟩ := normalize_some_form h
  have hO1 : lowerB o ≠ [] := lowerB_ne_nil ho1
  have hO2 : ∀ x ∈ lowerB o, x ≠ '/' := fun x hx => by
    obtain ⟨y, hy, rfl⟩ := List.mem_map.mp hx
    exact char_toLower_ne y '/' (by decide) (ho2 y hy)
  have hR1 : lowerB rp ≠ [] := lowerB_ne_nil hr1
  have hR2 : ∀ x ∈ lowerB rp, x ≠ '/' ∧ x ≠ '.' ∧ x ≠ '#' := fun x hx => by
    obtain ⟨y, hy, rfl⟩ := List.mem_map.mp hx
    exact ⟨char_toLower_ne y '/' (by decide) (hr2 y hy).1,
      char_toLower_ne y '.' (by decide) (hr2 y hy).2.1,
      char_toLower_ne y '#' (by decide) (hr2 y hy).2.2⟩
  have hform : "https://github.com/".toList ++ lowerB o ++ '/' :: lowerB rp
      = 'h' :: 't' :: 't' :: 'p' :: 's' :: ':' :: '/' :: '/'
        :: 'g' :: 'i' :: 't' :: 'h' :: 'u' :: 'b' :: '.' :: 'c' :: 'o' :: 'm' :: '/'
        :: (lowerB o ++ '/' :: lowerB rp) := by
    simp [List.append_assoc]
  rw [hform]
  simp only [normalizeGitHubUrl]
  rw [if_neg (by simp)]
  simp only [dropPrefixIfB]
  rw [if_neg (by simp [startsWithB])]
  rw [if_neg (by simp [startsWithB])]
  rw [ghFind_output (lowerB o) (lowerB rp) hO1 hO2 hR1 hR2]
  simp only [lowerB_idem, dropSuffix_no_dot (fun x hx => (hR2 x hx).2.1)]
  simp [List.append_assoc]

/-- Witness for C9's idempotence at a concrete accepted URL. -/
theorem normalize_idempotent_format_insensitive_witness :
    normalizeGitHubUrl "https://github.com/foo/bar".toList
      = some "https://github.com/foo/bar".toList :=
  normalize_idempotent_format_insensitive.1 "https://github.com/Foo/Bar.git".toList
    "https://github.com/foo/bar".toList (by decide)

/-! ## C6 — merge determinism: helper lemmas -/

attribute [ext] MergedServer

/-- Projections of one merge-missing step: each filled field depends
only on its own current value and the contributing record. -/
theorem stepP_githubRepoId (m : MergedServer) (s : DiscoveredServer) :
    (mergeMissingStep m s).githubRepoId =
      if !numTruthy m.githubRepoId && numTruthy s.githubRepoId then s.githubRepoId
      else m.githubRepoId := by
  unfold mergeMissingStep
  simp only [apply_ite MergedServer.githubRepoId]
  simp

theorem stepP_description (m : MergedServer) (s : DiscoveredServer) :
    (mergeMissingStep m s).description =
      if !strTruthy m.description && strTruthy s.description then s.description
      else m.description := by
  unfold mergeMissingStep
  simp only [apply_ite MergedServer.description]
  simp

theorem stepP_version (m : MergedServer) (s : DiscoveredServer) :
    (mergeMissingStep m s).version =
      if !strTruthy m.version && strTruthy s.version then s.version else m.version := by
  unfold mergeMissingStep
  simp only [apply_ite MergedServer.version]
  simp

theorem stepP_npmPackage (m : MergedServer) (s : DiscoveredServer) :
    (mergeMissingStep m s).npmPackage =
      if !strTruthy m.npmPackage && strTruthy s.npmPackage then s.npmPackage
      else m.npmPackage := by
  unfold mergeMissingStep
  simp only [apply_ite MergedServer.npmPackage]
  simp

theorem stepP_pypiPackage (m : MergedServer) (s : DiscoveredServer) :
    (mergeMissingStep m s).pypiPackage =
      if !strTruthy m.pypiPackage && strTruthy s.pypiPackage then s.pypiPackage
      else m.pypiPackage := by
  unfold mergeMissingStep
  simp only [apply_ite MergedServer.pypiPackage]
  simp

theorem stepP_installCommand (m : MergedServer) (s : DiscoveredServer) :
    (mergeMissingStep m s).installCommand =
      if !strTruthy m.installCommand && strTruthy s.installCommand then s.installCommand
      else m.installCommand := by
  unfold mergeMissingStep
  simp only [apply_ite MergedServer.installCommand]
  simp

theorem stepP_stars (m : MergedServer) (s : DiscoveredServer) :
    (mergeMissingStep m s).stars =
      if !numTruthy m.stars && numTruthy s.stars then s.stars else m.stars := by
  unfold mergeMissingStep
  simp only [apply_ite MergedServer.stars]
  simp

theorem stepP_forks (m : MergedServer) (s : DiscoveredServer) :
    (mergeMissingStep m s).forks =
      if !numTruthy m.forks && numTruthy s.forks then s.forks else m.forks := by
  unfold mergeMissingStep
  simp only [apply_ite MergedServer.forks]
  simp

theorem stepP_npmDownloads (m : MergedServer) (s : DiscoveredServer) :
    (mergeMissingStep m s).npmDownloads =
      if !numTruthy m.npmDownloads && numTruthy s.npmDownloads then s.npmDownloads
      else m.npmDownloads := by
  unfold mergeMissingStep
  simp only [apply_ite MergedServer.npmDownloads]
  simp

theorem stepP_npmQualityScore (m : MergedServer) (s : DiscoveredServer) :
    (mergeMissingStep m s).npmQualityScore =
      if !numTruthy m.npmQualityScore && numTruthy s.npmQualityScore then s.npmQualityScore
      else m.npmQualityScore := by
  unfold mergeMissingStep
  simp only [apply_ite MergedServer.npmQualityScore]
  simp

theorem stepP_lastUpdatedAt (m : MergedServer) (s : DiscoveredServer) :
    (mergeMissingStep m s).lastUpdatedAt =
      if !dateTruthy m.lastUpdatedAt && dateTruthy s.lastUpdatedAt then s.lastUpdatedAt
      else m.lastUpdatedAt := by
  unfold mergeMissingStep
  simp only [apply_ite MergedServer.lastUpdatedAt]
  simp

theorem stepP_canonicalUrl (m : MergedServer) (s : DiscoveredServer) :
    (mergeMissingStep m s).canonicalUrl = m.canonicalUrl := by
  unfold mergeMissingStep
  simp only [apply_ite MergedServer.canonicalUrl]
  simp

theorem stepP_githubOwner (m : MergedServer) (s : DiscoveredServer) :
    (mergeMissingStep m s).githubOwner = m.githubOwner := by
  unfold mergeMissingStep
  simp only [apply_ite MergedServer.githubOwner]
  simp

theorem stepP_githubRepo (m : MergedServer) (s : DiscoveredServer) :
    (mergeMissingStep m s).githubRepo = m.githubRepo := by
  unfold mergeMissingStep
  simp only [apply_ite MergedServer.githubRepo]
  simp

theorem stepP_name (m : MergedServer) (s : DiscoveredServer) :
    (mergeMissingStep m s).name = m.name := by
  unfold mergeMissingStep
  simp only [apply_ite MergedServer.name]
  simp

theorem stepP_sources (m : MergedServer) (s : DiscoveredServer) :
    (mergeMissingStep m s).sources = m.sources := by
  unfold mergeMissingStep
  simp only [apply_ite MergedServer.sources]
  simp

theorem stepP_sourceData (m : MergedServer) (s : DiscoveredServer) :
    (mergeMissingStep m s).sourceData = m.sourceData := by
  unfold mergeMissingStep
  simp only [apply_ite MergedServer.sourceData]
  simp

/-- A merge-missing step commutes with replacing the `sources` list: it
never reads or writes that field. -/
theorem mergeMissingStep_sources_comm (m : MergedServer) (v : List Source)
    (s : DiscoveredServer) :
    mergeMissingStep { m with sources := v } s = { mergeMissingStep m s with sources := v } := by
  ext <;>
    simp [stepP_githubRepoId, stepP_description, stepP_version, stepP_npmPackage,
      stepP_pypiPackage, stepP_installCommand, stepP_stars, stepP_forks,
      stepP_npmDownloads, stepP_npmQualityScore, stepP_lastUpdatedAt,
      stepP_canonicalUrl, stepP_githubOwner, stepP_githubRepo, stepP_name,
      stepP_sources, stepP_sourceData]

/-- The whole merge-missing loop commutes with replacing `sources`. -/
theorem mergeMissing_sources_comm (rest : List DiscoveredServer) (m : MergedServer)
    (v : List Source) :
    rest.foldl mergeMissingStep { m with sources := v }
      = { rest.foldl mergeMissingStep m with sources := v } := by
  induction rest generalizing m with
  | nil => rfl
  | cons s t ih =>
    rw [List.foldl_cons, List.foldl_cons, mergeMissingStep_sources_comm, ih]

/-- The merge-missing loop never changes `sources`. -/
theorem mergeMissing_sources (rest : List DiscoveredServer) (m : MergedServer) :
    (rest.foldl mergeMissingStep m).sources = m.sources := by
  induction rest generalizing m with
  | nil => rfl
  | cons s t ih => rw [List.foldl_cons, ih, stepP_sources]

/-- `SOURCE_PRIORITY` is injective on the four sources. -/
theorem sourcePriority_inj (s t : Source) (h : sourcePriority s = sourcePriority t) :
    s = t := by
  cases s <;> cases t <;> simp_all [sourcePriority]

/-- Two sorted lists that are permutations of each other are equal,
given antisymmetry on the members. -/
theorem sorted_perm_unique {α : Type} {r : α → α → Prop} {l₁ : List α} :
    ∀ {l₂ : List α},
    (∀ a ∈ l₁, ∀ b ∈ l₁, r a b → r b a → a = b) →
    List.Perm l₁ l₂ → List.Sorted r l₁ → List.Sorted r l₂ → l₁ = l₂ := by
  induction l₁ with
  | nil => intro l₂ _ hp _ _; exact hp.nil_eq
  | cons a t ih =>
    intro l₂ hanti hp hs₁ hs₂
    cases l₂ with
    | nil => exact absurd hp.symm.nil_eq (by simp)
    | cons b t₂ =>
      have hab : a = b := by
        have hmemb : b ∈ a :: t := hp.mem_iff.mpr (List.mem_cons_self b t₂)
        have hmema : a ∈ b :: t₂ := hp.mem_iff.mp (List.mem_cons_self a t)
        rcases List.mem_cons.mp hmemb with hb | hb
        · exact hb.symm
        · rcases List.mem_cons.mp hmema with ha | ha
          · exact ha
          · exact hanti a (List.mem_cons_self a t) b (List.mem_cons_of_mem a hb)
              (List.rel_of_sorted_cons hs₁ b hb) (List.rel_of_sorted_cons hs₂ a ha)
      subst hab
      have hp' : List.Perm t t₂ := hp.cons_inv
      rw [ih (fun x hx y hy => hanti x (List.mem_cons_of_mem a hx)
        y (List.mem_cons_of_mem a hy)) hp' hs₁.of_cons hs₂.of_cons]

/-- With pairwise-distinct sources, permuting the input does not change
the stable priority sort. -/
theorem sortByPriority_eq_of_perm {l₁ l₂ : List DiscoveredServer}
    (hnd : (l₁.map (fun s => s.source)).Nodup) (hp : List.Perm l₁ l₂) :
    sortByPriority l₁ = sortByPriority l₂ := by
  have hinj : ∀ a ∈ l₁, ∀ b ∈ l₁, a.source = b.source → a = b :=
    fun a ha b hb hs => List.inj_on_of_nodup_map hnd ha hb hs
  apply @sorted_perm_unique DiscoveredServer priorityLE (sortByPriority l₁)
    (sortByPriority l₂)
  · intro a ha b hb hrab hrba
    have ha' : a ∈ l₁ := (List.perm_insertionSort priorityLE l₁).subset ha
    have hb' : b ∈ l₁ := (List.perm_insertionSort priorityLE l₁).subset hb
    exact hinj a ha' b hb'
      (sourcePriority_inj a.source b.source (Nat.le_antisymm hrab hrba))
  · exact (List.perm_insertionSort priorityLE l₁).trans
      (hp.trans (List.perm_insertionSort priorityLE l₂).symm)
  · exact List.sorted_insertionSort priorityLE l₁
  · exact List.sorted_insertionSort priorityLE l₂

/-- `find?` is permutation-invariant when at most one element
satisfies the predicate. -/
theorem find?_eq_of_perm_unique {α : Type} {p : α → Bool} {l₁ l₂ : List α}
    (hp : List.Perm l₁ l₂)
    (huniq : ∀ a ∈ l₁, ∀ b ∈ l₁, p a = true → p b = true → a = b) :
    l₁.find? p = l₂.find? p := by
  cases h₁ : l₁.find? p with
  | none =>
    cases h₂ : l₂.find? p with
    | none => rfl
    | some b =>
      have hmem : b ∈ l₁ := hp.mem_iff.mpr (List.mem_of_find?_eq_some h₂)
      exact absurd (List.find?_some h₂) (List.find?_eq_none.mp h₁ b hmem)
  | some a =>
    cases h₂ : l₂.find? p with
    | none =>
      have hmem : a ∈ l₂ := hp.mem_iff.mp (List.mem_of_find?_eq_some h₁)
      exact absurd (List.find?_some h₁) (List.find?_eq_none.mp h₂ a hmem)
    | some b =>
      have hb : b ∈ l₁ := hp.mem_iff.mpr (List.mem_of_find?_eq_some h₂)
      rw [huniq a (List.mem_of_find?_eq_some h₁) b hb
        (List.find?_some h₁) (List.find?_some h₂)]

/-- With pairwise-distinct sources, the per-source lookup the override
table uses is permutation-invariant. -/
theorem find?_source_eq_of_perm {l₁ l₂ : List DiscoveredServer} (src : Source)
    (hnd : (l₁.map (fun s => s.source)).Nodup) (hp : List.Perm l₁ l₂) :
    l₁.find? (fun s => s.source = src) = l₂.find? (fun s => s.source = src) := by
  refine find?_eq_of_perm_unique hp ?_
  intro a ha b hb hpa hpb
  simp only [decide_eq_true_eq] at hpa hpb
  exact List.inj_on_of_nodup_map hnd ha hb (hpa.trans hpb.symm)

/-- Unfolding equations for `fieldOverride`. -/
theorem fieldOverride_cons_none {α : Type} (servers : List DiscoveredServer)
    (get : DiscoveredServer → Option α) (src : Source) (rest : List Source)
    (cur : Option α) (h : servers.find? (fun s => s.source = src) = none) :
    fieldOverride servers get (src :: rest) cur = fieldOverride servers get rest cur := by
  simp [fieldOverride, h]

theorem fieldOverride_cons_undef {α : Type} (servers : List DiscoveredServer)
    (get : DiscoveredServer → Option α) (src : Source) (rest : List Source)
    (cur : Option α) (sv : DiscoveredServer)
    (h1 : servers.find? (fun s => s.source = src) = some sv) (h2 : get sv = none) :
    fieldOverride servers get (src :: rest) cur = fieldOverride servers get rest cur := by
  simp [fieldOverride, h1, h2]

theorem fieldOverride_cons_def {α : Type} (servers : List DiscoveredServer)
    (get : DiscoveredServer → Option α) (src : Source) (rest : List Source)
    (cur : Option α) (sv : DiscoveredServer) (v : α)
    (h1 : servers.find? (fun s => s.source = src) = some sv) (h2 : get sv = some v) :
    fieldOverride servers get (src :: rest) cur = some v := by
  simp [fieldOverride, h1, h2]

/-- With pairwise-distinct sources, every field override is
permutation-invariant. -/
theorem fieldOverride_eq_of_perm {α : Type} {l₁ l₂ : List DiscoveredServer}
    (get : DiscoveredServer → Option α) (prio : List Source) (cur : Option α)
    (hnd : (l₁.map (fun s => s.source)).Nodup) (hp : List.Perm l₁ l₂) :
    fieldOverride l₁ get prio cur = fieldOverride l₂ get prio cur := by
  induction prio with
  | nil => rfl
  | cons src rest ih =>
    have hfe := find?_source_eq_of_perm src hnd hp
    cases hf : l₁.find? (fun s => s.source = src) with
    | none =>
      rw [fieldOverride_cons_none l₁ get src rest cur hf,
        fieldOverride_cons_none l₂ get src rest cur (hfe ▸ hf), ih]
    | some sv =>
      cases hg : get sv with
      | none =>
        rw [fieldOverride_cons_undef l₁ get src rest cur sv hf hg,
          fieldOverride_cons_undef l₂ get src rest cur sv (hfe ▸ hf) hg, ih]
      | some v =>
        rw [fieldOverride_cons_def l₁ get src rest cur sv v hf hg,
          fieldOverride_cons_def l₂ get src rest cur sv v (hfe ▸ hf) hg]

/-- The raw-payload map built by the collection loop is a last-wins
lookup. -/
theorem collect_foldl (l : List DiscoveredServer) (acc : Source → Option Nat) (k : Source) :
    (l.foldl (fun acc s => fun k => if k = s.source then some s.sourceData else acc k) acc) k
      = match l.reverse.find? (fun s => s.source = k) with
        | some s => some s.sourceData
        | none => acc k := by
  induction l generalizing acc with
  | nil => rfl
  | cons a t ih =>
    rw [List.foldl_cons, ih, List.reverse_cons, List.find?_append]
    cases hf : t.reverse.find? (fun s => s.source = k) with
    | some s => simp
    | none =>
      by_cases hk : a.source = k
      · simp [hk]
      · simp [hk, Ne.symm hk]

/-- With pairwise-distinct sources, the raw-payload map is
permutation-invariant. -/
theorem collectSourceData_eq_of_perm {l₁ l₂ : List DiscoveredServer}
    (hnd : (l₁.map (fun s => s.source)).Nodup) (hp : List.Perm l₁ l₂) :
    collectSourceData l₁ = collectSourceData l₂ := by
  funext k
  unfold collectSourceData
  rw [collect_foldl, collect_foldl]
  have hfe : l₁.reverse.find? (fun s => s.source = k)
      = l₂.reverse.find? (fun s => s.source = k) := by
    refine find?_eq_of_perm_unique
      ((List.reverse_perm l₁).trans (hp.trans (List.reverse_perm l₂).symm)) ?_
    intro a ha b hb hpa hpb
    simp only [decide_eq_true_eq] at hpa hpb
    exact List.inj_on_of_nodup_map hnd ((List.reverse_perm l₁).subset ha)
      ((List.reverse_perm l₁).subset hb) (hpa.trans hpb.symm)
  rw [hfe]

/-- Two github views with different star counts, to exhibit the
duplicate-source order dependence. -/
def ghStarsFive : DiscoveredServer :=
  { canonicalUrl := [], name := "gA".toList, source := Source.github, stars := some 5 }

def ghStarsSeven : DiscoveredServer :=
  { canonicalUrl := [], name := "gB".toList, source := Source.github, stars := some 7 }

/-- Counterexample to C6 as stated: merging `[npm, github]` versus
`[github, npm]` gives different `sources` lists (the code copies
`servers.map(s => s.source)` in input order), and with two records from
the same source even the merged stars depend on the input order. -/
theorem merge_order_dependent_cex :
    ((mergeGroup [] [npmThousandStars, ghFiveHundred]).map (fun m => m.sources)
        = some [Source.npm, Source.github]
      ∧ (mergeGroup [] [ghFiveHundred, npmThousandStars]).map (fun m => m.sources)
        = some [Source.github, Source.npm]
      ∧ [Source.npm, Source.github] ≠ [Source.github, Source.npm])
    ∧ ((mergeGroup [] [ghStarsFive, ghStarsSeven]).map (fun m => m.stars)
        = some (some 5)
      ∧ (mergeGroup [] [ghStarsSeven, ghStarsFive]).map (fun m => m.stars)
        = some (some 7)
      ∧ (some 5 : Option Nat) ≠ some 7) := by
  decide

/-- C6 amended: for a group whose records carry pairwise-distinct
sources, merging any permutation yields the same MergedServer in every
field except `sources`, which lists the contributing sources in input
order (so the two outputs differ exactly by that reordering). -/
theorem merge_deterministic_up_to_sources
    (url : Str) (l₁ l₂ : List DiscoveredServer)
    (hp : List.Perm l₁ l₂) (hne : l₁ ≠ [])
    (hnd : (l₁.map (fun s => s.source)).Nodup) :
    ∃ m₁ m₂, mergeGroup url l₁ = some m₁ ∧ mergeGroup url l₂ = some m₂
      ∧ m₂ = { m₁ with sources := l₂.map (fun s => s.source) }
      ∧ m₁.sources = l₁.map (fun s => s.source) := by
  have hne₂ : l₂ ≠ [] := fun h2 => hne (List.Perm.eq_nil (h2 ▸ hp))
  have hsort := sortByPriority_eq_of_perm hnd hp
  have hcd := collectSourceData_eq_of_perm hnd hp
  unfold mergeGroup
  rw [if_neg (by simp [hne]), if_neg (by simp [hne₂]), ← hsort]
  cases hs : sortByPriority l₁ with
  | nil =>
    have hperm : List.Perm (sortByPriority l₁) l₁ := List.perm_insertionSort priorityLE l₁
    rw [hs] at hperm
    exact absurd hperm.nil_eq.symm hne
  | cons primary rest =>
    refine ⟨_, _, rfl, rfl, ?_, ?_⟩
    · have hseed : ({ seedMerged url primary l₂ with
            sourceData := collectSourceData l₂ } : MergedServer)
          = { ({ seedMerged url primary l₁ with
                sourceData := collectSourceData l₁ } : MergedServer) with
              sources := l₂.map (fun s => s.source) } := by
        rw [hcd]
        rfl
      have happ : applyFieldPriority l₂
            { seedMerged url primary l₂ with sourceData := collectSourceData l₂ }
          = { applyFieldPriority l₁
                { seedMerged url primary l₁ with sourceData := collectSourceData l₁ } with
              sources := l₂.map (fun s => s.source) } := by
        rw [hseed]
        simp only [applyFieldPriority]
        rw [← fieldOverride_eq_of_perm (fun s => s.stars) [Source.github] _ hnd hp,
          ← fieldOverride_eq_of_perm (fun s => s.forks) [Source.github] _ hnd hp,
          ← fieldOverride_eq_of_perm (fun s => s.githubRepoId) [Source.github] _ hnd hp,
          ← fieldOverride_eq_of_perm (fun s => s.npmDownloads) [Source.npm] _ hnd hp,
          ← fieldOverride_eq_of_perm (fun s => s.npmQualityScore) [Source.npm] _ hnd hp,
          ← fieldOverride_eq_of_perm (fun s => s.version)
            [Source.npm, Source.mcpRegistry, Source.pypi] _ hnd hp,
          ← fieldOverride_eq_of_perm (fun s => s.installCommand)
            [Source.mcpRegistry, Source.npm, Source.pypi] _ hnd hp]
      rw [happ, mergeMissing_sources_comm]
    · rw [mergeMissing_sources]
      rfl

/-- Witness for C6's amended statement on a concrete two-record
group with distinct sources. -/
theorem merge_deterministic_up_to_sources_witness :
    ∃ m₁ m₂, mergeGroup [] [npmThousandStars, ghFiveHundred] = some m₁
      ∧ mergeGroup [] [ghFiveHundred, npmThousandStars] = some m₂
      ∧ m₂ = { m₁ with
          sources := [ghFiveHundred, npmThousandStars].map (fun s => s.source) }
      ∧ m₁.sources = [npmThousandStars, ghFiveHundred].map (fun s => s.source) :=
  merge_deterministic_up_to_sources [] [npmThousandStars, ghFiveHundred]
    [ghFiveHundred, npmThousandStars]
    (List.Perm.swap ghFiveHundred npmThousandStars [])
    (by simp) (by decide)
